import Mathlib

/-!
Verification of the hybrid ranking engine of the `mslilly` repository
(`src/lib/hybrid-search.ts`, `src/lib/semantic-search.ts`).

The TypeScript source is shallowly embedded:
* JavaScript strings are modelled as `Str := List Char`;
* JavaScript numbers carrying scores are modelled as `ℚ` (the arithmetic the
  engine performs on them is exact: sums of reciprocals `1/(k+rank)`,
  comparisons, and BM25 scores treated as opaque values);
* `Array.prototype.sort(cmp)` (stable since ES2019) is modelled by a stable
  descending insertion sort `sortD`;
* the insertion-ordered `Map<string, number>` is modelled by an association
  list with JS `Map.set`/`Map.get` semantics (`mapSet`/`mapGet`);
* external collaborators (the `okapibm25` BM25 implementation, the `ai`
  package's `embed` and `cosineSimilarity`, and the API-key environment
  variable) are fields of an `Env` record, since their code is not part of
  this repository;
* `throw` is modelled by `Except SearchError`.
-/

/-- A JavaScript string, modelled as its list of characters. -/
abbrev Str := List Char

/-- JS `String.prototype.trim`: drop whitespace from both ends. -/
def jsTrim (s : Str) : Str :=
  ((s.dropWhile Char.isWhitespace).reverse.dropWhile Char.isWhitespace).reverse

/-- The guard `!query || query.trim() === ''` used by every search entry point
(`hybrid-search.ts` lines 56/102/196/250, `semantic-search.ts` line 87). -/
def isBlankQuery (q : Str) : Bool :=
  q.isEmpty || (jsTrim q).isEmpty

/-- A character kept by the tokenizer's regex class `[a-z0-9]`
(applied after lowercasing). -/
def isAlnumLower (c : Char) : Bool :=
  ('a' ≤ c && c ≤ 'z') || ('0' ≤ c && c ≤ '9')

/-- Worker for `tokenize`: scans the text, accumulating the current run of
alphanumeric characters (in reverse) and emitting maximal runs.  This models
`text.split(/[^a-z0-9]+/).filter(token => token.length > 0)`: splitting on
runs of non-alphanumeric characters and discarding empty tokens leaves
exactly the maximal alphanumeric runs. -/
def tokenizeAux : List Char → List Char → List Str
  | [], cur => if cur.isEmpty then [] else [cur.reverse]
  | c :: rest, cur =>
    if isAlnumLower c then tokenizeAux rest (c :: cur)
    else if cur.isEmpty then tokenizeAux rest []
    else cur.reverse :: tokenizeAux rest []

/-- Model of `tokenize` from `hybrid-search.ts` lines 29–34: lowercase the text, split
on runs of characters outside `[a-z0-9]`, and drop empty tokens.
(`Char.toLower` agrees with JS `toLowerCase` on ASCII, which is all the
token class can retain.) -/
def tokenize (text : Str) : List Str :=
  tokenizeAux (text.map Char.toLower) []

/-- The decimal digit character of `d` (for `d < 10`), as produced by JS
number-to-string conversion in the template literal `` `${postIndex}-${mediaIndex}` ``. -/
def digitChar : ℕ → Char
  | 0 => '0' | 1 => '1' | 2 => '2' | 3 => '3' | 4 => '4'
  | 5 => '5' | 6 => '6' | 7 => '7' | 8 => '8' | _ => '9'

/-- Decimal digits of `n`, most significant first; `fuel` bounds the
recursion (`fuel = n` suffices).  Structural recursion keeps the model
kernel-evaluable. -/
def natCharsAux : ℕ → ℕ → Str
  | 0, _ => []
  | fuel + 1, n =>
    if n = 0 then [] else natCharsAux fuel (n / 10) ++ [digitChar (n % 10)]

/-- The decimal string of the natural number `n`, as JS `String(n)`. -/
def natChars (n : ℕ) : Str :=
  if n = 0 then ['0'] else natCharsAux n n

/-- Numeric value of a digit character, as used by JS `Number` on a digit
string (`'0'` has code 48). -/
def charVal (c : Char) : ℕ := c.toNat - 48

/-- JS `Number(s)` restricted to strings of decimal digits: fold the digits
left to right.  (On the key strings the engine produces, only digit strings
are ever parsed; `Number('') = 0` likewise corresponds to the empty fold.) -/
def charsToNat (s : Str) : ℕ :=
  s.foldl (fun acc c => 10 * acc + charVal c) 0

/-- JS `key.split('-')` on the character-list model of the string. -/
def splitDash : Str → List Str
  | [] => [[]]
  | c :: cs =>
    if c = '-' then [] :: splitDash cs
    else
      match splitDash cs with
      | [] => [[c]]
      | g :: gs => (c :: g) :: gs

/-- The document key `` `${postIndex}-${mediaIndex}` `` from
`hybrid-search.ts` lines 153–154. -/
def getKey (p m : ℕ) : Str :=
  natChars p ++ '-' :: natChars m

/-- The key decoding `key.split('-').map(Number)` destructured into
`[postIndex, mediaIndex]` (`hybrid-search.ts` line 173); a missing part
reads as `Number(undefined-ish) ⇝ 0`, which never happens on produced keys. -/
def decodeKey (s : Str) : ℕ × ℕ :=
  let parts := (splitDash s).map charsToNat
  (parts.getD 0 0, parts.getD 1 0)

/-- Insert `x` into a descending-by-`key` sorted list, after every element of
strictly larger key and before every element of equal or smaller key. -/
def insertD {α : Type} (key : α → ℚ) (x : α) : List α → List α
  | [] => [x]
  | y :: ys => if key x < key y then y :: insertD key x ys else x :: y :: ys

/-- Stable descending sort by `key`.  This models JS
`arr.sort((a, b) => key(b) - key(a))`: `Array.prototype.sort` is stable
(ES2019), and a stable sort's output (sorted, with elements of equal key in
their original relative order) is unique, so any stable sorting algorithm
models it. -/
def sortD {α : Type} (key : α → ℚ) : List α → List α
  | [] => []
  | x :: xs => insertD key x (sortD key xs)

/-- JS `arr.map((x, index) => f(index, x))`, carrying the start index. -/
def mapIdx' {α β : Type} (f : ℕ → α → β) : ℕ → List α → List β
  | _, [] => []
  | i, x :: xs => f i x :: mapIdx' f (i + 1) xs

/-- One corpus record, `PostEmbedding` from `semantic-search.ts`. -/
structure PostEmbedding where
  postIndex : ℕ
  mediaIndex : ℕ
  title : Str
  uri : Str
  isVideo : Bool
  creationTimestamp : ℤ
  embedding : List ℚ
deriving DecidableEq

/-- Model of `RankedResult` from `hybrid-search.ts`: a document key with its
1-indexed rank in one ranked list. -/
structure RankedResult where
  postIndex : ℕ
  mediaIndex : ℕ
  rank : ℕ
deriving DecidableEq

/-- Model of `KeywordSearchResult` from `hybrid-search.ts`: a ranked document with
its raw BM25 score. -/
structure KeywordSearchResult where
  postIndex : ℕ
  mediaIndex : ℕ
  rank : ℕ
  score : ℚ
deriving DecidableEq

/-- Intermediate record of `getKeywordRanks` before filtering/sorting. -/
structure ScoredDoc where
  postIndex : ℕ
  mediaIndex : ℕ
  score : ℚ
deriving DecidableEq

/-- Intermediate record of the semantic scorers before sorting. -/
structure SimScored where
  postIndex : ℕ
  mediaIndex : ℕ
  similarity : ℚ
deriving DecidableEq

/-- Model of `FusedResult` from `hybrid-search.ts`. -/
structure FusedResult where
  postIndex : ℕ
  mediaIndex : ℕ
  rrfScore : ℚ
deriving DecidableEq

/-- Model of `SearchResult` from `semantic-search.ts`. -/
structure SearchResult where
  postIndex : ℕ
  mediaIndex : ℕ
  title : Str
  uri : Str
  isVideo : Bool
  creationTimestamp : ℤ
  similarity : ℚ
deriving DecidableEq

/-- The `throw`s of the engine: missing
`GOOGLE_GENERATIVE_AI_API_KEY` (a configuration error), a failing embedding
call (provider error), and the `Post not found` internal-consistency error. -/
inductive SearchError where
  | configurationError
  | providerError (msg : Str)
  | postNotFound (key : Str)
deriving DecidableEq

/-- The external collaborators of the engine, not part of this repository:
whether `GOOGLE_GENERATIVE_AI_API_KEY` is set, the `ai` package's
`embed` call (which can fail) and `cosineSimilarity`, and `okapibm25`'s
`BM25(documents, queryTokens, {k1: 1.3, b: 0.9})` score array. -/
structure Env where
  apiKey : Bool
  embed : Str → Except Str (List ℚ)
  cosineSim : List ℚ → List ℚ → ℚ
  bm25 : List Str → List Str → List ℚ

/-- An insertion-ordered `Map<string, number>` as an association list. -/
abbrev KVList := List (Str × ℚ)

/-- JS `Map.get`: value of the first (only) entry with the key. -/
def mapGet : KVList → Str → Option ℚ
  | [], _ => none
  | e :: es, key => if e.1 = key then some e.2 else mapGet es key

/-- JS `Map.set`: update in place if the key is present (keeping its
position), otherwise append at the end (insertion order).  A JS `Map`
never holds two entries with the same key, so replacing the first
occurrence is exact. -/
def mapSet : KVList → Str → ℚ → KVList
  | [], key, v => [(key, v)]
  | e :: es, key, v => if e.1 = key then (key, v) :: es else e :: mapSet es key v

/-- One `rrfScores.set(key, (rrfScores.get(key) || 0) + 1/(k + rank))` step
(`hybrid-search.ts` lines 157–168).  A stored score is never `0` (it is a
positive sum of reciprocals when `k > 0`), so JS `x || 0` is `getD x 0`. -/
def rrfStep (kc : ℚ) (m : KVList) (key : Str) (rank : ℕ) : KVList :=
  mapSet m key ((mapGet m key).getD 0 + 1 / (kc + (rank : ℚ)))

/-- Folding one ranked list's contributions into the score map (one
`forEach` loop of `fuseRRF`), with entries as (key, rank) pairs. -/
def rrfFold (kc : ℚ) : KVList → List (Str × ℕ) → KVList
  | m, [] => m
  | m, e :: es => rrfFold kc (rrfStep kc m e.1 e.2) es

/-- The (key, rank) pairs the semantic `forEach` loop feeds into the map. -/
def semEntries (semanticRanks : List RankedResult) : List (Str × ℕ) :=
  semanticRanks.map fun r => (getKey r.postIndex r.mediaIndex, r.rank)

/-- The (key, rank) pairs the keyword `forEach` loop feeds into the map
(the `score` field is not read by `fuseRRF`). -/
def kwEntries (keywordRanks : List KeywordSearchResult) : List (Str × ℕ) :=
  keywordRanks.map fun r => (getKey r.postIndex r.mediaIndex, r.rank)

/-- The `rrfScores` map after both `forEach` loops of `fuseRRF`
(`hybrid-search.ts` lines 149–168): semantic contributions first, then
keyword contributions. -/
def rrfMap (kc : ℚ) (semanticRanks : List RankedResult)
    (keywordRanks : List KeywordSearchResult) : KVList :=
  rrfFold kc (rrfFold kc [] (semEntries semanticRanks)) (kwEntries keywordRanks)

/-- Decoding one map entry back into a `FusedResult`
(`hybrid-search.ts` lines 171–180). -/
def decodeEntry (e : Str × ℚ) : FusedResult :=
  ⟨(decodeKey e.1).1, (decodeKey e.1).2, e.2⟩

/-- Model of `fuseRRF` from `hybrid-search.ts` lines 144–184: accumulate reciprocal
rank contributions of both lists in an insertion-ordered map, decode the
entries, and sort descending by RRF score (stable JS sort). -/
def fuseRRF (semanticRanks : List RankedResult)
    (keywordRanks : List KeywordSearchResult) (kc : ℚ) : List FusedResult :=
  sortD (·.rrfScore) ((rrfMap kc semanticRanks keywordRanks).map decodeEntry)

/-- Model of `getKeywordRanks` from `hybrid-search.ts` lines 52–90: guard blank and
token-free queries, score every title with BM25, pair scores with documents
positionally (`scores[index]`, out-of-range reading as a non-positive
score), drop non-positive scores, sort descending by score (stable), and
assign 1-indexed ranks. -/
def getKeywordRanks (env : Env) (query : Str) (embeddings : List PostEmbedding) :
    List KeywordSearchResult :=
  if isBlankQuery query then [] else
  let queryTokens := tokenize query
  if queryTokens.isEmpty then [] else
  let documents := embeddings.map (·.title)
  let scores := env.bm25 documents queryTokens
  let resultsWithScores :=
    (mapIdx' (fun index post => ScoredDoc.mk post.postIndex post.mediaIndex
      (scores.getD index 0)) 0 embeddings).filter fun r => decide (0 < r.score)
  mapIdx' (fun index r => KeywordSearchResult.mk r.postIndex r.mediaIndex
    (index + 1) r.score) 0 (sortD (·.score) resultsWithScores)

/-- Model of `getSemanticRanks` from `hybrid-search.ts` lines 98–135: guard blank
queries, fail without the API key, embed the query once, score the whole
corpus by cosine similarity, sort descending (stable), assign 1-indexed
ranks. -/
def getSemanticRanks (env : Env) (query : Str)
    (embeddings : List PostEmbedding) : Except SearchError (List RankedResult) :=
  if isBlankQuery query then .ok [] else
  if !env.apiKey then .error .configurationError else
  match env.embed query with
  | .error e => .error (.providerError e)
  | .ok queryEmbedding =>
    let resultsWithScores := embeddings.map fun post =>
      SimScored.mk post.postIndex post.mediaIndex
        (env.cosineSim queryEmbedding post.embedding)
    .ok (mapIdx' (fun index r => RankedResult.mk r.postIndex r.mediaIndex
      (index + 1)) 0 (sortD (·.similarity) resultsWithScores))

/-- The lookup in `embeddingMap = new Map(embeddings.map(post => [key, post]))`:
with duplicate keys, constructing a JS `Map` from entry pairs lets the
later entry win, so lookup prefers the rightmost match. -/
def mapLookup : List PostEmbedding → Str → Option PostEmbedding
  | [], _ => none
  | post :: rest, key =>
    match mapLookup rest key with
    | some q => some q
    | none =>
      if getKey post.postIndex post.mediaIndex = key then some post else none

/-- Resolution of fused results to `SearchResult`s (`hybrid-search.ts`
lines 218–235): look every key up in the embedding map, throwing
`Post not found` on a miss; `similarity` is the RRF score. -/
def resolveFused (embeddings : List PostEmbedding) :
    List FusedResult → Except SearchError (List SearchResult)
  | [] => .ok []
  | f :: fs =>
    match mapLookup embeddings (getKey f.postIndex f.mediaIndex) with
    | none => .error (.postNotFound (getKey f.postIndex f.mediaIndex))
    | some post =>
      match resolveFused embeddings fs with
      | .error e => .error e
      | .ok rs => .ok (SearchResult.mk post.postIndex post.mediaIndex
          post.title post.uri post.isVideo post.creationTimestamp
          f.rrfScore :: rs)

/-- Resolution of keyword results (`hybrid-search.ts` lines 266–283);
`similarity` is the raw BM25 score. -/
def resolveKeyword (embeddings : List PostEmbedding) :
    List KeywordSearchResult → Except SearchError (List SearchResult)
  | [] => .ok []
  | r :: rs =>
    match mapLookup embeddings (getKey r.postIndex r.mediaIndex) with
    | none => .error (.postNotFound (getKey r.postIndex r.mediaIndex))
    | some post =>
      match resolveKeyword embeddings rs with
      | .error e => .error e
      | .ok out => .ok (SearchResult.mk post.postIndex post.mediaIndex
          post.title post.uri post.isVideo post.creationTimestamp
          r.score :: out)

/-- Model of `hybridSearch` from `hybrid-search.ts` lines 192–238: guard blank
queries, run both scorers (the semantic one can fail and its failure
rejects the whole call), fuse with `k = 60`, truncate to `topK`, and
resolve.  The loaded corpus is the `embeddings` parameter. -/
def hybridSearch (env : Env) (query : Str) (topK : ℕ)
    (embeddings : List PostEmbedding) : Except SearchError (List SearchResult) :=
  if isBlankQuery query then .ok [] else
  match getSemanticRanks env query embeddings with
  | .error e => .error e
  | .ok semanticRanks =>
    let keywordRanks := getKeywordRanks env query embeddings
    let fusedResults := fuseRRF semanticRanks keywordRanks 60
    resolveFused embeddings (fusedResults.take topK)

/-- Model of `keywordSearch` from `hybrid-search.ts` lines 246–286. -/
def keywordSearch (env : Env) (query : Str) (topK : ℕ)
    (embeddings : List PostEmbedding) : Except SearchError (List SearchResult) :=
  if isBlankQuery query then .ok [] else
  resolveKeyword embeddings ((getKeywordRanks env query embeddings).take topK)

/-- Model of `searchPosts` from `semantic-search.ts` lines 83–123 (semantic-only
mode): guard blank queries, fail without the API key, embed the query,
score and keep the whole corpus, sort descending by similarity (stable),
truncate to `topK`. -/
def searchPosts (env : Env) (query : Str) (topK : ℕ)
    (embeddings : List PostEmbedding) : Except SearchError (List SearchResult) :=
  if isBlankQuery query then .ok [] else
  if !env.apiKey then .error .configurationError else
  match env.embed query with
  | .error e => .error (.providerError e)
  | .ok queryEmbedding =>
    .ok ((sortD (·.similarity) (embeddings.map fun post =>
      SearchResult.mk post.postIndex post.mediaIndex post.title post.uri
        post.isVideo post.creationTimestamp
        (env.cosineSim queryEmbedding post.embedding))).take topK)

/-- The keys of the score map, in insertion order. -/
def keysOf (m : KVList) : List Str := m.map (·.1)

/-- The ranks a key receives in one entry list (in list order). -/
def ranksAt (entries : List (Str × ℕ)) (key : Str) : List ℕ :=
  (entries.filter fun e => decide (e.1 = key)).map (·.2)

/-- Sum of reciprocal-rank contributions `1 / (k + rank)`. -/
def sumRR (kc : ℚ) (ranks : List ℕ) : ℚ :=
  (ranks.map fun r => 1 / (kc + (r : ℚ))).sum

/-- The ranks of the document `(p, m)` in a semantic ranked list. -/
def semRanksAt (sem : List RankedResult) (p m : ℕ) : List ℕ :=
  (sem.filter fun r => decide (r.postIndex = p ∧ r.mediaIndex = m)).map (·.rank)

/-- The ranks of the document `(p, m)` in a keyword ranked list. -/
def kwRanksAt (kw : List KeywordSearchResult) (p m : ℕ) : List ℕ :=
  (kw.filter fun r => decide (r.postIndex = p ∧ r.mediaIndex = m)).map (·.rank)

/-- The RRF scores that fused output assigns to the document `(p, m)`
(a sub-singleton list: the score if the document is present, else empty). -/
def matchScores (out : List FusedResult) (p m : ℕ) : List ℚ :=
  (out.filter fun f => decide (f.postIndex = p ∧ f.mediaIndex = m)).map (·.rrfScore)

/-- Exchanging the two lists passed to `fuseRRF`: the keyword list read as
a plain ranked list, and a ranked list read as a keyword list (the `score`
field, unread by `fuseRRF`, set to `0`). -/
def toRankedList (kw : List KeywordSearchResult) : List RankedResult :=
  kw.map fun r => ⟨r.postIndex, r.mediaIndex, r.rank⟩

/-- Companion of `toRankedList` for the other argument position. -/
def toKeywordList (sem : List RankedResult) : List KeywordSearchResult :=
  sem.map fun r => ⟨r.postIndex, r.mediaIndex, r.rank, 0⟩

/-- A concrete environment for witnesses: API key present, embedding calls
succeed, cosine similarity reads the first embedding coordinate, and BM25
returns the given score array. -/
def demoEnv (scores : List ℚ) : Env where
  apiKey := true
  embed := fun _ => .ok [1]
  cosineSim := fun _ e => e.headD 0
  bm25 := fun _ _ => scores

/-- A concrete environment with the embedding credential missing. -/
def demoEnvNoKey : Env :=
  { demoEnv [] with apiKey := false }

/-- A concrete environment whose embedding call fails with a provider
error. -/
def demoEnvFail : Env :=
  { demoEnv [] with embed := fun _ => .error ['e'] }

/-- Corpus document `A = (0,0)`, titled "a", semantically scoring 1. -/
def postA : PostEmbedding := ⟨0, 0, ['a'], [], false, 0, [1]⟩

/-- Corpus document `B = (1,0)`, titled "b", semantically scoring 2. -/
def postB : PostEmbedding := ⟨1, 0, ['b'], [], false, 0, [2]⟩

/-- The dot product of two vectors, pairing coordinates positionally. -/
def dotp (a b : List ℝ) : ℝ :=
  ((a.zip b).map fun p => p.1 * p.2).sum

/-- Modelled from the spec: the magnitude (Euclidean norm) of a vector,
`√(v · v)`.  The `cosineSimilarity` the engine calls comes from the external
`ai` package, which is not part of this repository. -/
noncomputable def magnitude (v : List ℝ) : ℝ :=
  Real.sqrt (dotp v v)

open Classical in
/-- Modelled from the spec: cosine similarity is the dot product divided by
the product of the two magnitudes, with the similarity defined as `0` when
either vector has zero magnitude (never divide by zero).  The `ai` package's
implementation is external to this repository. -/
noncomputable def cosineSimilaritySpec (a b : List ℝ) : ℝ :=
  if magnitude a = 0 ∨ magnitude b = 0 then 0
  else dotp a b / (magnitude a * magnitude b)

/-- The ranked list `getSemanticRanks` returns on the success path: the
whole corpus scored, sorted descending by similarity, ranks `1..n`. -/
def semListOf (env : Env) (qv : List ℚ) (corpus : List PostEmbedding) :
    List RankedResult :=
  mapIdx' (fun index r => RankedResult.mk r.postIndex r.mediaIndex (index + 1)) 0
    (sortD (·.similarity) (corpus.map fun post =>
      SimScored.mk post.postIndex post.mediaIndex
        (env.cosineSim qv post.embedding)))

theorem digitChar_ne_dash (d : ℕ) : digitChar d ≠ '-' := by
  match d with
  | 0 | 1 | 2 | 3 | 4 | 5 | 6 | 7 | 8 => decide
  | n + 9 => exact (by decide : ('9' : Char) ≠ '-')

theorem charVal_digitChar {d : ℕ} (h : d < 10) : charVal (digitChar d) = d := by
  interval_cases d <;> decide

theorem dash_not_mem_natCharsAux (fuel n : ℕ) : '-' ∉ natCharsAux fuel n := by
  induction fuel generalizing n with
  | zero => simp [natCharsAux]
  | succ fuel ih =>
    by_cases h : n = 0
    · simp [natCharsAux, h]
    · simp only [natCharsAux, if_neg h, List.mem_append, List.mem_singleton]
      rintro (hc | hc)
      · exact ih _ hc
      · exact digitChar_ne_dash _ hc.symm

theorem dash_not_mem_natChars (n : ℕ) : '-' ∉ natChars n := by
  by_cases h : n = 0
  · simp [natChars, h]
  · simpa [natChars, h] using dash_not_mem_natCharsAux n n

theorem charsToNat_append_digit (a : Str) (c : Char) :
    charsToNat (a ++ [c]) = 10 * charsToNat a + charVal c := by
  simp [charsToNat, List.foldl_append]

theorem charsToNat_natCharsAux {fuel n : ℕ} (h : n ≤ fuel) :
    charsToNat (natCharsAux fuel n) = n := by
  induction fuel generalizing n with
  | zero => interval_cases n; simp [natCharsAux, charsToNat]
  | succ fuel ih =>
    by_cases h0 : n = 0
    · simp [natCharsAux, h0, charsToNat]
    · have hdiv : n / 10 ≤ fuel := by
        have : n / 10 < n := Nat.div_lt_self (Nat.pos_of_ne_zero h0) (by omega)
        omega
      rw [natCharsAux, if_neg h0, charsToNat_append_digit, ih hdiv,
        charVal_digitChar (Nat.mod_lt _ (by omega))]
      omega

theorem charsToNat_natChars (n : ℕ) : charsToNat (natChars n) = n := by
  by_cases h : n = 0
  · simp [natChars, h]; decide
  · simpa [natChars, h] using charsToNat_natCharsAux (le_refl n)

theorem splitDash_no_dash {a : Str} (h : '-' ∉ a) : splitDash a = [a] := by
  induction a with
  | nil => rfl
  | cons c cs ih =>
    have hc : c ≠ '-' := fun hc => h (hc ▸ List.mem_cons_self c cs)
    have hcs : '-' ∉ cs := fun hm => h (List.mem_cons_of_mem _ hm)
    simp [splitDash, hc, ih hcs]

theorem splitDash_append {a : Str} (b : Str) (h : '-' ∉ a) :
    splitDash (a ++ '-' :: b) = a :: splitDash b := by
  induction a with
  | nil => simp [splitDash]
  | cons c cs ih =>
    have hc : c ≠ '-' := fun hc => h (hc ▸ List.mem_cons_self c cs)
    have hcs : '-' ∉ cs := fun hm => h (List.mem_cons_of_mem _ hm)
    have := ih hcs
    simp only [List.cons_append, splitDash, if_neg hc, List.append_eq, this]

theorem decodeKey_getKey (p m : ℕ) : decodeKey (getKey p m) = (p, m) := by
  unfold decodeKey getKey
  rw [splitDash_append _ (dash_not_mem_natChars p),
    splitDash_no_dash (dash_not_mem_natChars m)]
  simp [charsToNat_natChars]

theorem getKey_injective {p m p' m' : ℕ} (h : getKey p m = getKey p' m') :
    p = p' ∧ m = m' := by
  have := decodeKey_getKey p m
  rw [h, decodeKey_getKey] at this
  exact ⟨(Prod.mk.injEq _ _ _ _ ▸ this).1.symm, (Prod.mk.injEq _ _ _ _ ▸ this).2.symm⟩

theorem insertD_perm {α : Type} (key : α → ℚ) (x : α) (l : List α) :
    (insertD key x l).Perm (x :: l) := by
  induction l with
  | nil => exact List.Perm.refl _
  | cons y ys ih =>
    by_cases h : key x < key y
    · simp only [insertD, if_pos h]
      exact (ih.cons y).trans (List.Perm.swap x y ys)
    · simp only [insertD, if_neg h]
      exact List.Perm.refl _

theorem sortD_perm {α : Type} (key : α → ℚ) (l : List α) : (sortD key l).Perm l := by
  induction l with
  | nil => exact List.Perm.refl _
  | cons x xs ih => exact (insertD_perm key x (sortD key xs)).trans (ih.cons x)

theorem insertD_sorted {α : Type} (key : α → ℚ) {x : α} {l : List α}
    (h : l.Pairwise (fun a b => key b ≤ key a)) :
    (insertD key x l).Pairwise (fun a b => key b ≤ key a) := by
  induction l with
  | nil => simp [insertD]
  | cons y ys ih =>
    rcases List.pairwise_cons.mp h with ⟨hy, hys⟩
    by_cases hlt : key x < key y
    · simp only [insertD, if_pos hlt]
      refine List.pairwise_cons.mpr ⟨?_, ih hys⟩
      intro z hz
      rcases List.mem_cons.mp ((insertD_perm key x ys).mem_iff.mp hz) with rfl | hz'
      · exact le_of_lt hlt
      · exact hy z hz'
    · simp only [insertD, if_neg hlt]
      refine List.pairwise_cons.mpr ⟨?_, h⟩
      intro z hz
      rcases List.mem_cons.mp hz with rfl | hz'
      · exact not_lt.mp hlt
      · exact le_trans (hy z hz') (not_lt.mp hlt)

theorem sortD_sorted {α : Type} (key : α → ℚ) (l : List α) :
    (sortD key l).Pairwise (fun a b => key b ≤ key a) := by
  induction l with
  | nil => simp [sortD]
  | cons x xs ih => exact insertD_sorted key ih

theorem sublist_insertD {α : Type} (key : α → ℚ) (x : α) (l : List α) :
    l.Sublist (insertD key x l) := by
  induction l with
  | nil => exact List.nil_sublist _
  | cons y ys ih =>
    by_cases h : key x < key y
    · simp only [insertD, if_pos h]
      exact ih.cons₂ y
    · simp only [insertD, if_neg h]
      exact (y :: ys).sublist_cons_self x

theorem insertD_before {α : Type} (key : α → ℚ) {x b : α} {l : List α}
    (hl : l.Pairwise (fun a b => key b ≤ key a)) (hb : b ∈ l)
    (hkb : key b ≤ key x) : List.Sublist [x, b] (insertD key x l) := by
  induction l with
  | nil => cases hb
  | cons y ys ih =>
    rcases List.pairwise_cons.mp hl with ⟨hy, hys⟩
    by_cases hlt : key x < key y
    · simp only [insertD, if_pos hlt]
      rcases List.mem_cons.mp hb with rfl | hb'
      · exact absurd (lt_of_le_of_lt hkb hlt) (lt_irrefl _)
      · exact (ih hys hb').cons y
    · simp only [insertD, if_neg hlt]
      exact (List.singleton_sublist.mpr hb).cons₂ x

/-- Stability of the sort: two elements in descending-key order keep their
relative order. -/
theorem sortD_stable {α : Type} (key : α → ℚ) {a b : α} {l : List α}
    (hab : List.Sublist [a, b] l) (hk : key b ≤ key a) :
    List.Sublist [a, b] (sortD key l) := by
  induction l with
  | nil => cases hab
  | cons c t ih =>
    cases hab with
    | cons _ h => exact (ih h).trans (sublist_insertD key c (sortD key t))
    | cons₂ _ h =>
      have hb : b ∈ sortD key t :=
        (sortD_perm key t).mem_iff.mpr (List.singleton_sublist.mp h)
      exact insertD_before key (sortD_sorted key t) hb hk

theorem length_mapIdx' {α β : Type} (f : ℕ → α → β) (s : ℕ) (l : List α) :
    (mapIdx' f s l).length = l.length := by
  induction l generalizing s with
  | nil => rfl
  | cons x xs ih => simp [mapIdx', ih]

theorem mem_mapIdx' {α β : Type} {f : ℕ → α → β} {s : ℕ} {l : List α} {y : β}
    (hy : y ∈ mapIdx' f s l) : ∃ n x, x ∈ l ∧ s ≤ n ∧ y = f n x := by
  induction l generalizing s with
  | nil => cases hy
  | cons x xs ih =>
    rcases List.mem_cons.mp hy with rfl | hy'
    · exact ⟨s, x, List.mem_cons_self x xs, le_refl s, rfl⟩
    · rcases ih hy' with ⟨n, x', hx', hn, rfl⟩
      exact ⟨n, x', List.mem_cons_of_mem _ hx', by omega, rfl⟩

theorem map_mapIdx' {α β γ : Type} (f : ℕ → α → β) (g : β → γ) (h : α → γ)
    (s : ℕ) (l : List α) (hg : ∀ n x, g (f n x) = h x) :
    (mapIdx' f s l).map g = l.map h := by
  induction l generalizing s with
  | nil => rfl
  | cons x xs ih => simp [mapIdx', hg, ih]

theorem map_mapIdx'_range' {α β : Type} (f : ℕ → α → β) (g : β → ℕ)
    (s : ℕ) (l : List α) (hg : ∀ n x, g (f n x) = n + 1) :
    (mapIdx' f s l).map g = List.range' (s + 1) l.length := by
  induction l generalizing s with
  | nil => rfl
  | cons x xs ih =>
    simp only [mapIdx', List.map_cons, hg, List.length_cons]
    rw [ih (s + 1)]
    rfl

theorem keysOf_cons (e : Str × ℚ) (es : KVList) :
    keysOf (e :: es) = e.1 :: keysOf es := rfl

theorem mapGet_mapSet_self (m : KVList) (k : Str) (v : ℚ) :
    mapGet (mapSet m k v) k = some v := by
  induction m with
  | nil => simp [mapSet, mapGet]
  | cons e es ih =>
    by_cases h : e.1 = k
    · simp [mapSet, mapGet, h]
    · simp [mapSet, mapGet, h, ih]

theorem mapGet_mapSet_ne (m : KVList) {k k' : Str} (v : ℚ) (h : k' ≠ k) :
    mapGet (mapSet m k v) k' = mapGet m k' := by
  have h' : ¬(k = k') := fun hh => h hh.symm
  induction m with
  | nil => simp [mapSet, mapGet, h']
  | cons e es ih =>
    by_cases he : e.1 = k
    · simp [mapSet, mapGet, he, h']
    · by_cases he' : e.1 = k'
      · simp [mapSet, mapGet, he, he', h]
      · simp [mapSet, mapGet, he, he', ih]

theorem keysOf_mapSet_mem {m : KVList} {k : Str} (v : ℚ) (h : k ∈ keysOf m) :
    keysOf (mapSet m k v) = keysOf m := by
  induction m with
  | nil => cases h
  | cons e es ih =>
    by_cases he : e.1 = k
    · simp [mapSet, keysOf_cons, he]
    · have h' : k ∈ keysOf es := by
        rcases List.mem_cons.mp (keysOf_cons e es ▸ h) with h1 | h1
        · exact absurd h1.symm he
        · exact h1
      rw [mapSet, if_neg he, keysOf_cons, keysOf_cons, ih h']

theorem keysOf_mapSet_not_mem {m : KVList} {k : Str} (v : ℚ)
    (h : k ∉ keysOf m) : keysOf (mapSet m k v) = keysOf m ++ [k] := by
  induction m with
  | nil => simp [mapSet, keysOf]
  | cons e es ih =>
    have he : e.1 ≠ k := fun hh =>
      h (keysOf_cons e es ▸ (hh ▸ List.mem_cons_self e.1 (keysOf es)))
    have h' : k ∉ keysOf es := fun hh =>
      h (keysOf_cons e es ▸ List.mem_cons_of_mem e.1 hh)
    rw [mapSet, if_neg he, keysOf_cons, ih h', keysOf_cons, List.cons_append]

theorem nodup_keysOf_mapSet {m : KVList} {k : Str} (v : ℚ)
    (h : (keysOf m).Nodup) : (keysOf (mapSet m k v)).Nodup := by
  by_cases hk : k ∈ keysOf m
  · rw [keysOf_mapSet_mem v hk]; exact h
  · rw [keysOf_mapSet_not_mem v hk]
    simpa [List.nodup_append] using ⟨h, hk⟩

theorem mapGet_eq_none_iff (m : KVList) (k : Str) :
    mapGet m k = none ↔ k ∉ keysOf m := by
  induction m with
  | nil => simp [mapGet, keysOf]
  | cons e es ih =>
    by_cases he : e.1 = k
    · subst he
      simp [mapGet, keysOf_cons]
    · rw [keysOf_cons]
      simp only [mapGet, if_neg he, List.mem_cons]
      rw [ih]
      constructor
      · intro hk
        rintro (rfl | h1)
        · exact he rfl
        · exact hk h1
      · intro hk h1
        exact hk (Or.inr h1)

theorem mapGet_of_mem_nodup {m : KVList} {e : Str × ℚ}
    (h : (keysOf m).Nodup) (he : e ∈ m) : mapGet m e.1 = some e.2 := by
  induction m with
  | nil => cases he
  | cons x xs ih =>
    have hx1 : x.1 ∉ keysOf xs ∧ (keysOf xs).Nodup := by
      have := keysOf_cons x xs ▸ h
      exact List.nodup_cons.mp this
    rcases List.mem_cons.mp he with rfl | he'
    · simp [mapGet]
    · have hemem : e.1 ∈ keysOf xs := List.mem_map_of_mem _ he'
      have hx : x.1 ≠ e.1 := by
        intro hh
        rw [hh] at hx1
        exact hx1.1 hemem
      simp [mapGet, hx, ih hx1.2 he']

theorem ranksAt_eq_nil_iff (entries : List (Str × ℕ)) (key : Str) :
    ranksAt entries key = [] ↔ key ∉ entries.map (·.1) := by
  simp only [ranksAt, List.map_eq_nil_iff, List.filter_eq_nil_iff]
  constructor
  · intro h hk
    rcases List.mem_map.mp hk with ⟨e, he, hke⟩
    have : ¬e.1 = key := by simpa using h e he
    exact this (by simpa using hke)
  · intro h e he
    simp only [decide_eq_true_eq]
    intro hke
    exact h (List.mem_map.mpr ⟨e, he, hke ▸ rfl⟩)

theorem ranksAt_cons_pos {e : Str × ℕ} {key : Str} (es : List (Str × ℕ))
    (he : e.1 = key) : ranksAt (e :: es) key = e.2 :: ranksAt es key := by
  simp [ranksAt, List.filter_cons, he]

theorem ranksAt_cons_neg {e : Str × ℕ} {key : Str} (es : List (Str × ℕ))
    (he : ¬e.1 = key) : ranksAt (e :: es) key = ranksAt es key := by
  simp [ranksAt, List.filter_cons, he]

theorem sumRR_nil (kc : ℚ) : sumRR kc [] = 0 := rfl

theorem sumRR_cons (kc : ℚ) (r : ℕ) (ranks : List ℕ) :
    sumRR kc (r :: ranks) = 1 / (kc + (r : ℚ)) + sumRR kc ranks := by
  simp [sumRR]

theorem rrfFold_get_some (kc : ℚ) {m : KVList} {key : Str} {v : ℚ}
    (es : List (Str × ℕ)) (h : mapGet m key = some v) :
    mapGet (rrfFold kc m es) key = some (v + sumRR kc (ranksAt es key)) := by
  induction es generalizing m v with
  | nil => simpa [rrfFold, ranksAt, sumRR] using h
  | cons e es ih =>
    by_cases he : e.1 = key
    · have hstep : mapGet (rrfStep kc m e.1 e.2) key =
          some (v + 1 / (kc + (e.2 : ℚ))) := by
        rw [rrfStep, he, h]
        simpa using mapGet_mapSet_self m key _
      rw [rrfFold, ih hstep, ranksAt_cons_pos es he, sumRR_cons, add_assoc]
    · have hstep : mapGet (rrfStep kc m e.1 e.2) key = some v := by
        rw [rrfStep, mapGet_mapSet_ne _ _ (fun hh => he hh.symm)]
        exact h
      rw [rrfFold, ih hstep, ranksAt_cons_neg es he]

theorem rrfFold_get_none (kc : ℚ) {m : KVList} {key : Str}
    (es : List (Str × ℕ)) (h : mapGet m key = none) :
    mapGet (rrfFold kc m es) key =
      if ranksAt es key = [] then none else some (sumRR kc (ranksAt es key)) := by
  induction es generalizing m with
  | nil => simpa [rrfFold, ranksAt, sumRR] using h
  | cons e es ih =>
    by_cases he : e.1 = key
    · have hstep : mapGet (rrfStep kc m e.1 e.2) key =
          some (1 / (kc + (e.2 : ℚ))) := by
        rw [rrfStep, he, h]
        simpa using mapGet_mapSet_self m key _
      rw [rrfFold, rrfFold_get_some kc es hstep, ranksAt_cons_pos es he,
        sumRR_cons]
      simp
    · have hstep : mapGet (rrfStep kc m e.1 e.2) key = none := by
        rw [rrfStep, mapGet_mapSet_ne _ _ (fun hh => he hh.symm)]
        exact h
      rw [rrfFold, ih hstep, ranksAt_cons_neg es he]

theorem nodup_keysOf_rrfFold (kc : ℚ) {m : KVList} (es : List (Str × ℕ))
    (h : (keysOf m).Nodup) : (keysOf (rrfFold kc m es)).Nodup := by
  induction es generalizing m with
  | nil => exact h
  | cons e es ih => exact ih (nodup_keysOf_mapSet _ h)

theorem keysOf_rrfFold_subset (kc : ℚ) {m : KVList} (es : List (Str × ℕ))
    {key : Str} (h : key ∈ keysOf (rrfFold kc m es)) :
    key ∈ keysOf m ∨ key ∈ es.map (·.1) := by
  by_contra hcon
  push_neg at hcon
  have h1 : mapGet m key = none := (mapGet_eq_none_iff m key).mpr hcon.1
  have h2 : ranksAt es key = [] := (ranksAt_eq_nil_iff es key).mpr hcon.2
  have := rrfFold_get_none kc es h1
  rw [h2, if_pos rfl] at this
  exact ((mapGet_eq_none_iff _ key).mp this) h

/-- The value the `rrfScores` map holds for a key: the sum of its semantic
and keyword reciprocal-rank contributions, present exactly when the key
occurs in at least one input list. -/
theorem rrfMap_get (kc : ℚ) (sem : List RankedResult)
    (kw : List KeywordSearchResult) (key : Str) :
    mapGet (rrfMap kc sem kw) key =
      if ranksAt (semEntries sem) key = [] ∧ ranksAt (kwEntries kw) key = []
      then none
      else some (sumRR kc (ranksAt (semEntries sem) key) +
        sumRR kc (ranksAt (kwEntries kw) key)) := by
  have hnil : mapGet ([] : KVList) key = none := rfl
  by_cases hs : ranksAt (semEntries sem) key = []
  · have h1 := rrfFold_get_none kc (semEntries sem) hnil
    rw [if_pos hs] at h1
    have h2 := rrfFold_get_none kc (kwEntries kw) h1
    by_cases hk : ranksAt (kwEntries kw) key = []
    · rw [rrfMap, h2, if_pos hk, if_pos ⟨hs, hk⟩]
    · rw [rrfMap, h2, if_neg hk, if_neg (fun hc => hk hc.2)]
      rw [hs]
      simp [sumRR]
  · have h1 := rrfFold_get_none kc (semEntries sem) hnil
    rw [if_neg hs] at h1
    have h2 := rrfFold_get_some kc (kwEntries kw) h1
    rw [rrfMap, h2, if_neg (fun hc => hs hc.1)]

theorem nodup_keysOf_rrfMap (kc : ℚ) (sem : List RankedResult)
    (kw : List KeywordSearchResult) : (keysOf (rrfMap kc sem kw)).Nodup :=
  nodup_keysOf_rrfFold kc _ (nodup_keysOf_rrfFold kc _ (by simp [keysOf]))

/-- Every key of the score map is the encoded key of some input entry. -/
theorem rrfMap_keys_shape (kc : ℚ) (sem : List RankedResult)
    (kw : List KeywordSearchResult) {key : Str}
    (h : key ∈ keysOf (rrfMap kc sem kw)) :
    (∃ r ∈ sem, key = getKey r.postIndex r.mediaIndex) ∨
      ∃ r ∈ kw, key = getKey r.postIndex r.mediaIndex := by
  rcases keysOf_rrfFold_subset kc _ h with h1 | h1
  · rcases keysOf_rrfFold_subset kc _ h1 with h2 | h2
    · simp [keysOf] at h2
    · rcases List.mem_map.mp h2 with ⟨e, he, hke⟩
      rcases List.mem_map.mp he with ⟨r, hr, rfl⟩
      exact Or.inl ⟨r, hr, hke.symm⟩
  · rcases List.mem_map.mp h1 with ⟨e, he, hke⟩
    rcases List.mem_map.mp he with ⟨r, hr, rfl⟩
    exact Or.inr ⟨r, hr, hke.symm⟩

theorem alist_filter_of_not_mem {M : KVList} {key : Str} (h : key ∉ keysOf M) :
    M.filter (fun e => decide (e.1 = key)) = [] := by
  rw [List.filter_eq_nil_iff]
  intro x hx
  simp only [decide_eq_true_eq]
  intro hxk
  exact h (hxk ▸ List.mem_map_of_mem _ hx)

theorem alist_filter_of_get_some {M : KVList} {key : Str} {v : ℚ}
    (hnd : (keysOf M).Nodup) (h : mapGet M key = some v) :
    M.filter (fun e => decide (e.1 = key)) = [(key, v)] := by
  induction M with
  | nil => simp [mapGet] at h
  | cons e es ih =>
    rcases List.nodup_cons.mp (keysOf_cons e es ▸ hnd) with ⟨h1, h2⟩
    by_cases he : e.1 = key
    · subst he
      have h' : e.2 = v := by simpa [mapGet] using h
      rw [List.filter_cons, if_pos (by simp), alist_filter_of_not_mem h1, ← h']
    · simp only [mapGet, if_neg he] at h
      rw [List.filter_cons, if_neg (by simpa using he)]
      exact ih h2 h

theorem ranksAt_semEntries (sem : List RankedResult) (p m : ℕ) :
    ranksAt (semEntries sem) (getKey p m) = semRanksAt sem p m := by
  unfold ranksAt semEntries semRanksAt
  rw [List.filter_map, List.map_map]
  rw [List.filter_congr (p := fun r : RankedResult =>
      decide (r.postIndex = p ∧ r.mediaIndex = m)) ?_]
  · rfl
  · intro r _
    simp only [Function.comp_apply]
    rw [decide_eq_decide]
    constructor
    · rintro ⟨rfl, rfl⟩; rfl
    · exact fun h => getKey_injective h

theorem ranksAt_kwEntries (kw : List KeywordSearchResult) (p m : ℕ) :
    ranksAt (kwEntries kw) (getKey p m) = kwRanksAt kw p m := by
  unfold ranksAt kwEntries kwRanksAt
  rw [List.filter_map, List.map_map]
  rw [List.filter_congr (p := fun r : KeywordSearchResult =>
      decide (r.postIndex = p ∧ r.mediaIndex = m)) ?_]
  · rfl
  · intro r _
    simp only [Function.comp_apply]
    rw [decide_eq_decide]
    constructor
    · rintro ⟨rfl, rfl⟩; rfl
    · exact fun h => getKey_injective h

/-- The fused score of the document `(p, m)` is the sum of its semantic and
keyword reciprocal-rank contributions; a document in neither list is
absent from the output. -/
theorem matchScores_fuseRRF (sem : List RankedResult)
    (kw : List KeywordSearchResult) (kc : ℚ) (p m : ℕ) :
    matchScores (fuseRRF sem kw kc) p m =
      if semRanksAt sem p m = [] ∧ kwRanksAt kw p m = [] then []
      else [sumRR kc (semRanksAt sem p m) + sumRR kc (kwRanksAt kw p m)] := by
  have hpred : ∀ e ∈ rrfMap kc sem kw,
      ((fun f : FusedResult => decide (f.postIndex = p ∧ f.mediaIndex = m)) ∘
        decodeEntry) e = decide (e.1 = getKey p m) := by
    intro e he
    have hk : e.1 ∈ keysOf (rrfMap kc sem kw) := List.mem_map_of_mem _ he
    have hshape := rrfMap_keys_shape kc sem kw hk
    have : ∃ a b, e.1 = getKey a b := by
      rcases hshape with ⟨r, _, hr⟩ | ⟨r, _, hr⟩
      · exact ⟨_, _, hr⟩
      · exact ⟨_, _, hr⟩
    rcases this with ⟨a, b, hab⟩
    simp only [Function.comp_apply, decodeEntry, hab, decodeKey_getKey]
    rw [decide_eq_decide]
    constructor
    · rintro ⟨rfl, rfl⟩; rfl
    · exact fun h => getKey_injective h
  have hfilter : (List.filter
        (fun f : FusedResult => decide (f.postIndex = p ∧ f.mediaIndex = m))
        ((rrfMap kc sem kw).map decodeEntry)) =
      ((rrfMap kc sem kw).filter
        (fun e => decide (e.1 = getKey p m))).map decodeEntry := by
    rw [List.filter_map, List.filter_congr hpred]
  have hperm := (sortD_perm (·.rrfScore) ((rrfMap kc sem kw).map decodeEntry)).filter
    (fun f : FusedResult => decide (f.postIndex = p ∧ f.mediaIndex = m))
  have hget := rrfMap_get kc sem kw (getKey p m)
  rw [ranksAt_semEntries, ranksAt_kwEntries] at hget
  by_cases hc : semRanksAt sem p m = [] ∧ kwRanksAt kw p m = []
  · rw [if_pos hc] at hget ⊢
    have hnotmem : getKey p m ∉ keysOf (rrfMap kc sem kw) :=
      (mapGet_eq_none_iff _ _).mp hget
    rw [alist_filter_of_not_mem hnotmem] at hfilter
    simp only [List.map_nil] at hfilter
    rw [hfilter] at hperm
    rw [matchScores, fuseRRF, List.perm_nil.mp hperm, List.map_nil]
  · rw [if_neg hc] at hget ⊢
    rw [alist_filter_of_get_some (nodup_keysOf_rrfMap kc sem kw) hget] at hfilter
    simp only [List.map_cons, List.map_nil] at hfilter
    rw [hfilter] at hperm
    rw [matchScores, fuseRRF, List.perm_singleton.mp hperm]
    simp [decodeEntry]

/-- C1: For every pair of ranked lists and constant `k > 0`, `fuseRRF`
assigns a document present once at rank `r1` in the semantic list and once
at rank `r2` in the keyword list the score `1/(k+r1) + 1/(k+r2)`; a
document in only one list at rank `r` gets exactly `1/(k+r)`; a document
in neither list does not appear in the output. -/
theorem fuseRRF_rrf_score_formula (sem : List RankedResult)
    (kw : List KeywordSearchResult) (kc : ℚ) (p m : ℕ) (_hk : 0 < kc) :
    (∀ r1 r2 : ℕ, semRanksAt sem p m = [r1] → kwRanksAt kw p m = [r2] →
      matchScores (fuseRRF sem kw kc) p m =
        [1 / (kc + (r1 : ℚ)) + 1 / (kc + (r2 : ℚ))]) ∧
    (∀ r1 : ℕ, semRanksAt sem p m = [r1] → kwRanksAt kw p m = [] →
      matchScores (fuseRRF sem kw kc) p m = [1 / (kc + (r1 : ℚ))]) ∧
    (∀ r2 : ℕ, semRanksAt sem p m = [] → kwRanksAt kw p m = [r2] →
      matchScores (fuseRRF sem kw kc) p m = [1 / (kc + (r2 : ℚ))]) ∧
    (semRanksAt sem p m = [] → kwRanksAt kw p m = [] →
      matchScores (fuseRRF sem kw kc) p m = []) := by
  refine ⟨?_, ?_, ?_, ?_⟩
  · intro r1 r2 h1 h2
    rw [matchScores_fuseRRF, h1, h2, if_neg (by simp)]
    simp [sumRR_cons, sumRR_nil]
  · intro r1 h1 h2
    rw [matchScores_fuseRRF, h1, h2, if_neg (by simp)]
    simp [sumRR_cons, sumRR_nil]
  · intro r2 h1 h2
    rw [matchScores_fuseRRF, h1, h2, if_neg (by simp)]
    simp [sumRR_cons, sumRR_nil]
  · intro h1 h2
    rw [matchScores_fuseRRF, h1, h2, if_pos ⟨rfl, rfl⟩]

/-- Witness for C1, on the spec's own scenario (§8): lists
`[A:1, B:2]` and `[B:1, C:2]` with `A = (0,0)`, `B = (1,0)`, `C = (2,0)`
and `k = 60` give `B` the score `1/62 + 1/61`. -/
theorem fuseRRF_rrf_score_formula_witness :
    (0 : ℚ) < 60 ∧
    semRanksAt [⟨0, 0, 1⟩, ⟨1, 0, 2⟩] 1 0 = [2] ∧
    kwRanksAt [⟨1, 0, 1, 5⟩, ⟨2, 0, 2, 3⟩] 1 0 = [1] ∧
    matchScores (fuseRRF [⟨0, 0, 1⟩, ⟨1, 0, 2⟩] [⟨1, 0, 1, 5⟩, ⟨2, 0, 2, 3⟩] 60)
      1 0 = [1 / (60 + (2 : ℚ)) + 1 / (60 + (1 : ℚ))] :=
  ⟨by norm_num, by decide, by decide,
    (fuseRRF_rrf_score_formula [⟨0, 0, 1⟩, ⟨1, 0, 2⟩] [⟨1, 0, 1, 5⟩, ⟨2, 0, 2, 3⟩]
      60 1 0 (by norm_num)).1 2 1 (by decide) (by decide)⟩

theorem semRanksAt_toRankedList (kw : List KeywordSearchResult) (p m : ℕ) :
    semRanksAt (toRankedList kw) p m = kwRanksAt kw p m := by
  unfold semRanksAt toRankedList kwRanksAt
  rw [List.filter_map, List.map_map]
  rfl

theorem kwRanksAt_toKeywordList (sem : List RankedResult) (p m : ℕ) :
    kwRanksAt (toKeywordList sem) p m = semRanksAt sem p m := by
  unfold kwRanksAt toKeywordList semRanksAt
  rw [List.filter_map, List.map_map]
  rfl

/-- C5 counterexample: two singleton lists holding distinct documents, both
at rank 1.  Fused scores tie at `1/61`, and the output order follows the
argument order, so exchanging the lists reverses the fused ranking. -/
theorem fuseRRF_not_commutative :
    ((fuseRRF [⟨1, 0, 1⟩] [⟨2, 0, 1, 7⟩] 60).map fun f =>
      (f.postIndex, f.mediaIndex)) = [(1, 0), (2, 0)] ∧
    ((fuseRRF (toRankedList [⟨2, 0, 1, 7⟩]) (toKeywordList [⟨1, 0, 1⟩]) 60).map
      fun f => (f.postIndex, f.mediaIndex)) = [(2, 0), (1, 0)] := by
  constructor <;>
    norm_num +decide [fuseRRF, rrfMap, rrfFold, rrfStep, semEntries, kwEntries,
      toRankedList, toKeywordList, mapSet, mapGet, sortD, insertD, decodeEntry,
      show getKey 1 0 = ['1', '-', '0'] from by decide,
      show getKey 2 0 = ['2', '-', '0'] from by decide,
      show decodeKey ['1', '-', '0'] = (1, 0) from by decide,
      show decodeKey ['2', '-', '0'] = (2, 0) from by decide]

/-- C5 amended: RRF fusion is commutative on fused scores — exchanging the
two input lists leaves every document's fused score (and its presence in
the output) unchanged; only the order among tied documents can change. -/
theorem fuseRRF_scores_commutative (sem : List RankedResult)
    (kw : List KeywordSearchResult) (kc : ℚ) (p m : ℕ) :
    matchScores (fuseRRF sem kw kc) p m =
      matchScores (fuseRRF (toRankedList kw) (toKeywordList sem) kc) p m := by
  rw [matchScores_fuseRRF, matchScores_fuseRRF, semRanksAt_toRankedList,
    kwRanksAt_toKeywordList]
  exact if_congr and_comm rfl (by rw [add_comm])

/-- C4 amended: whenever two entries of the `rrfScores` map carry equal
fused scores, the fused output keeps them in map insertion order — the
order of first contributions, semantic list first — not corpus order. -/
theorem fuseRRF_tie_insertion_order (sem : List RankedResult)
    (kw : List KeywordSearchResult) (kc : ℚ) {e1 e2 : Str × ℚ}
    (h12 : List.Sublist [e1, e2] (rrfMap kc sem kw)) (htie : e1.2 = e2.2) :
    List.Sublist [decodeEntry e1, decodeEntry e2] (fuseRRF sem kw kc) := by
  have hmap := List.Sublist.map decodeEntry h12
  exact sortD_stable (·.rrfScore) hmap (le_of_eq (by simp [decodeEntry, htie]))

/-- Witness for the amended C4: a concrete map with two tied entries in
insertion order, preserved by the fused output. -/
theorem fuseRRF_tie_insertion_order_witness :
    List.Sublist [(['1', '-', '0'], (1 : ℚ) / 61), (['2', '-', '0'], (1 : ℚ) / 61)]
      (rrfMap 60 [⟨1, 0, 1⟩] [⟨2, 0, 1, 7⟩]) ∧
    List.Sublist [decodeEntry (['1', '-', '0'], (1 : ℚ) / 61),
      decodeEntry (['2', '-', '0'], (1 : ℚ) / 61)]
      (fuseRRF [⟨1, 0, 1⟩] [⟨2, 0, 1, 7⟩] 60) := by
  have hsub : List.Sublist
      [(['1', '-', '0'], (1 : ℚ) / 61), (['2', '-', '0'], (1 : ℚ) / 61)]
      (rrfMap 60 [⟨1, 0, 1⟩] [⟨2, 0, 1, 7⟩]) := by
    have : rrfMap 60 [⟨1, 0, 1⟩] [⟨2, 0, 1, 7⟩] =
        [(['1', '-', '0'], (1 : ℚ) / 61), (['2', '-', '0'], (1 : ℚ) / 61)] := by
      norm_num +decide [rrfMap, rrfFold, rrfStep, semEntries, kwEntries,
        mapSet, mapGet,
        show getKey 1 0 = ['1', '-', '0'] from by decide,
        show getKey 2 0 = ['2', '-', '0'] from by decide]
    rw [this]
  exact ⟨hsub, fuseRRF_tie_insertion_order [⟨1, 0, 1⟩] [⟨2, 0, 1, 7⟩] 60 hsub rfl⟩

/-- C4 counterexample: corpus `[A, B]`; semantic similarities rank `B`
first, BM25 ranks `A` first, so fused scores tie at `1/61 + 1/62`, yet the
output lists `B` before `A` — the reverse of corpus order. -/
theorem fuseRRF_ties_not_corpus_order :
    ([postA, postB].map fun post => (post.postIndex, post.mediaIndex)) =
      [(0, 0), (1, 0)] ∧
    hybridSearch (demoEnv [2, 1]) ['g'] 10 [postA, postB] = .ok
      [⟨1, 0, ['b'], [], false, 0, 1 / 61 + 1 / 62⟩,
        ⟨0, 0, ['a'], [], false, 0, 1 / 61 + 1 / 62⟩] := by
  constructor
  · decide
  · norm_num +decide [hybridSearch, demoEnv, postA, postB,
      show isBlankQuery ['g'] = false from by decide,
      show tokenize ['g'] = [['g']] from by decide,
      getSemanticRanks, getKeywordRanks, mapIdx', sortD, insertD, List.filter,
      fuseRRF, rrfMap, rrfFold, rrfStep, semEntries, kwEntries, mapSet, mapGet,
      decodeEntry,
      show getKey 0 0 = ['0', '-', '0'] from by decide,
      show getKey 1 0 = ['1', '-', '0'] from by decide,
      show decodeKey ['0', '-', '0'] = (0, 0) from by decide,
      show decodeKey ['1', '-', '0'] = (1, 0) from by decide,
      resolveFused, mapLookup]

/-- C7: a blank query (empty, or whitespace only) yields `ok []` in all
three modes, for every environment — in particular with the embedding
credential missing and whatever the provider would do, since neither is
consulted. -/
theorem blank_query_empty_all_modes (env : Env) (q : Str) (topK : ℕ)
    (corpus : List PostEmbedding) (h : isBlankQuery q = true) :
    keywordSearch env q topK corpus = .ok [] ∧
    searchPosts env q topK corpus = .ok [] ∧
    hybridSearch env q topK corpus = .ok [] := by
  refine ⟨?_, ?_, ?_⟩
  · rw [keywordSearch, if_pos h]
  · rw [searchPosts, if_pos h]
  · rw [hybridSearch, if_pos h]

/-- Witness for C7: the whitespace query `" "` against an environment with
no credential configured. -/
theorem blank_query_empty_all_modes_witness :
    isBlankQuery [' '] = true ∧
    (keywordSearch demoEnvNoKey [' '] 10 [postA] = .ok [] ∧
      searchPosts demoEnvNoKey [' '] 10 [postA] = .ok [] ∧
      hybridSearch demoEnvNoKey [' '] 10 [postA] = .ok []) :=
  ⟨by decide, blank_query_empty_all_modes demoEnvNoKey [' '] 10 [postA] (by decide)⟩

theorem mem_zip_self {α : Type} {l : List α} {p : α × α} (hp : p ∈ l.zip l) :
    p.1 = p.2 := by
  induction l with
  | nil => cases hp
  | cons x xs ih =>
    rw [List.zip_cons_cons] at hp
    rcases List.mem_cons.mp hp with rfl | hp'
    · rfl
    · exact ih hp'

theorem dotp_self_nonneg (v : List ℝ) : 0 ≤ dotp v v := by
  refine List.sum_nonneg ?_
  intro x hx
  rcases List.mem_map.mp hx with ⟨p, hp, rfl⟩
  rw [mem_zip_self hp]
  exact mul_self_nonneg p.2

/-- C8: if either vector has zero magnitude — equivalently, its dot product
with itself (sum of squares) is zero — the spec-modelled cosine similarity
is `0`, a total real value rather than a division by zero. -/
theorem cosineSimilaritySpec_zero_magnitude (a b : List ℝ)
    (h : dotp a a = 0 ∨ dotp b b = 0) :
    cosineSimilaritySpec a b = 0 ∧ (magnitude a = 0 ↔ dotp a a = 0) := by
  have hiff : ∀ v : List ℝ, magnitude v = 0 ↔ dotp v v = 0 := fun v => by
    rw [magnitude]
    exact Real.sqrt_eq_zero (dotp_self_nonneg v)
  have hmag : magnitude a = 0 ∨ magnitude b = 0 := by
    rcases h with h | h
    · exact Or.inl ((hiff a).mpr h)
    · exact Or.inr ((hiff b).mpr h)
  exact ⟨by rw [cosineSimilaritySpec, if_pos hmag], hiff a⟩

/-- Witness for C8: the zero vector against `[1]`. -/
theorem cosineSimilaritySpec_zero_magnitude_witness :
    (dotp [0] [0] = 0 ∨ dotp [1] [1] = 0) ∧
    (cosineSimilaritySpec [0] [1] = 0 ∧ (magnitude [0] = 0 ↔ dotp [0] [0] = 0)) :=
  ⟨Or.inl (by simp [dotp]), cosineSimilaritySpec_zero_magnitude [0] [1]
    (Or.inl (by simp [dotp]))⟩

theorem getSemanticRanks_ok {env : Env} {q : Str} {qv : List ℚ}
    (corpus : List PostEmbedding) (hq : isBlankQuery q = false)
    (hkey : env.apiKey = true) (hembed : env.embed q = .ok qv) :
    getSemanticRanks env q corpus = .ok (semListOf env qv corpus) := by
  rw [getSemanticRanks, if_neg (by simp [hq]), if_neg (by simp [hkey]), hembed]
  rfl

theorem getSemanticRanks_error_shape {env : Env} {q : Str}
    {corpus : List PostEmbedding} {e : SearchError}
    (h : getSemanticRanks env q corpus = .error e) :
    e = .configurationError ∨ ∃ s, e = .providerError s := by
  rw [getSemanticRanks] at h
  split at h
  · cases h
  · split at h
    · cases h
      exact Or.inl rfl
    · split at h
      · cases h
        exact Or.inr ⟨_, rfl⟩
      · cases h

theorem mapLookup_eq_none_iff (corpus : List PostEmbedding) (key : Str) :
    mapLookup corpus key = none ↔
      ∀ post ∈ corpus, getKey post.postIndex post.mediaIndex ≠ key := by
  induction corpus with
  | nil => simp [mapLookup]
  | cons p rest ih =>
    cases hrest : mapLookup rest key with
    | some q =>
      have hne : ¬(∀ post ∈ rest, getKey post.postIndex post.mediaIndex ≠ key) :=
        fun hall => by
          rw [ih.mpr hall] at hrest
          cases hrest
      constructor
      · intro h
        rw [mapLookup, hrest] at h
        cases h
      · intro hall
        exact absurd (fun post hp => hall post (List.mem_cons_of_mem _ hp)) hne
    | none =>
      rw [mapLookup, hrest]
      by_cases hp : getKey p.postIndex p.mediaIndex = key
      · simp only [if_pos hp]
        constructor
        · intro h; cases h
        · intro hall
          exact absurd hp (hall p (List.mem_cons_self p rest))
      · simp only [if_neg hp]
        constructor
        · intro _ post hpost
          rcases List.mem_cons.mp hpost with rfl | hpost'
          · exact hp
          · exact ih.mp hrest post hpost'
        · intro _; trivial

theorem mapLookup_isSome {corpus : List PostEmbedding} {key : Str}
    (h : ∃ post ∈ corpus, getKey post.postIndex post.mediaIndex = key) :
    ∃ q, mapLookup corpus key = some q := by
  cases hl : mapLookup corpus key with
  | some q => exact ⟨q, rfl⟩
  | none =>
    rcases h with ⟨post, hpost, hkey⟩
    exact absurd hkey ((mapLookup_eq_none_iff corpus key).mp hl post hpost)

theorem resolveFused_ok {corpus : List PostEmbedding} {fl : List FusedResult}
    (h : ∀ f ∈ fl, ∃ post ∈ corpus,
      getKey post.postIndex post.mediaIndex =
        getKey f.postIndex f.mediaIndex) :
    ∃ rs, resolveFused corpus fl = .ok rs ∧ rs.length = fl.length ∧
      ∀ r ∈ rs, ∃ f ∈ fl, r.similarity = f.rrfScore := by
  induction fl with
  | nil => exact ⟨[], rfl, rfl, by simp⟩
  | cons f fs ih =>
    rcases mapLookup_isSome (h f (List.mem_cons_self f fs)) with ⟨q, hq⟩
    rcases ih (fun g hg => h g (List.mem_cons_of_mem _ hg)) with ⟨rs, hrs, hlen, hsim⟩
    refine ⟨SearchResult.mk q.postIndex q.mediaIndex q.title q.uri q.isVideo
      q.creationTimestamp f.rrfScore :: rs, ?_, ?_, ?_⟩
    · rw [resolveFused, hq, hrs]
    · simpa using hlen
    · intro r hr
      rcases List.mem_cons.mp hr with rfl | hr'
      · exact ⟨f, List.mem_cons_self f fs, rfl⟩
      · rcases hsim r hr' with ⟨g, hg, hsg⟩
        exact ⟨g, List.mem_cons_of_mem _ hg, hsg⟩

theorem resolveKeyword_ok {corpus : List PostEmbedding}
    {kl : List KeywordSearchResult}
    (h : ∀ r ∈ kl, ∃ post ∈ corpus,
      getKey post.postIndex post.mediaIndex =
        getKey r.postIndex r.mediaIndex) :
    ∃ rs, resolveKeyword corpus kl = .ok rs ∧ rs.length = kl.length ∧
      ∀ r ∈ rs, ∃ k ∈ kl, r.similarity = k.score := by
  induction kl with
  | nil => exact ⟨[], rfl, rfl, by simp⟩
  | cons f fs ih =>
    rcases mapLookup_isSome (h f (List.mem_cons_self f fs)) with ⟨q, hq⟩
    rcases ih (fun g hg => h g (List.mem_cons_of_mem _ hg)) with ⟨rs, hrs, hlen, hsim⟩
    refine ⟨SearchResult.mk q.postIndex q.mediaIndex q.title q.uri q.isVideo
      q.creationTimestamp f.score :: rs, ?_, ?_, ?_⟩
    · rw [resolveKeyword, hq, hrs]
    · simpa using hlen
    · intro r hr
      rcases List.mem_cons.mp hr with rfl | hr'
      · exact ⟨f, List.mem_cons_self f fs, rfl⟩
      · rcases hsim r hr' with ⟨g, hg, hsg⟩
        exact ⟨g, List.mem_cons_of_mem _ hg, hsg⟩

/-- Every document in `fuseRRF`'s output carries the identity of some
document of one of the two input lists. -/
theorem fuseRRF_mem_shape {sem : List RankedResult}
    {kw : List KeywordSearchResult} {kc : ℚ} {f : FusedResult}
    (hf : f ∈ fuseRRF sem kw kc) :
    (∃ r ∈ sem, f.postIndex = r.postIndex ∧ f.mediaIndex = r.mediaIndex) ∨
      ∃ r ∈ kw, f.postIndex = r.postIndex ∧ f.mediaIndex = r.mediaIndex := by
  have hmem : f ∈ (rrfMap kc sem kw).map decodeEntry := by
    rw [fuseRRF] at hf
    exact (sortD_perm (·.rrfScore) _).mem_iff.mp hf
  rcases List.mem_map.mp hmem with ⟨e, he, rfl⟩
  have hk : e.1 ∈ keysOf (rrfMap kc sem kw) := List.mem_map_of_mem _ he
  rcases rrfMap_keys_shape kc sem kw hk with ⟨r, hr, hkey⟩ | ⟨r, hr, hkey⟩
  · exact Or.inl ⟨r, hr, by simp [decodeEntry, hkey, decodeKey_getKey]⟩
  · exact Or.inr ⟨r, hr, by simp [decodeEntry, hkey, decodeKey_getKey]⟩

theorem fuseRRF_ne_nil {sem : List RankedResult}
    {kw : List KeywordSearchResult} {kc : ℚ} (h : sem ≠ []) :
    fuseRRF sem kw kc ≠ [] := by
  rcases sem with _ | ⟨r, rest⟩
  · exact absurd rfl h
  · have hranks : semRanksAt (r :: rest) r.postIndex r.mediaIndex ≠ [] := by
      rw [semRanksAt, List.filter_cons, if_pos (by simp)]
      simp
    have hget := rrfMap_get kc (r :: rest) kw (getKey r.postIndex r.mediaIndex)
    rw [ranksAt_semEntries, ranksAt_kwEntries,
      if_neg (fun hc => hranks hc.1)] at hget
    intro hnil
    have hM : rrfMap kc (r :: rest) kw = [] := by
      have hlen := (sortD_perm (·.rrfScore) ((rrfMap kc (r :: rest) kw).map
        decodeEntry)).length_eq
      rw [fuseRRF] at hnil
      rw [hnil] at hlen
      have hmap : (rrfMap kc (r :: rest) kw).map decodeEntry = [] :=
        List.length_eq_zero.mp (by simpa using hlen.symm)
      exact List.map_eq_nil_iff.mp hmap
    rw [hM] at hget
    cases hget

theorem semListOf_mem {env : Env} {qv : List ℚ} {corpus : List PostEmbedding}
    {r : RankedResult} (hr : r ∈ semListOf env qv corpus) :
    (∃ post ∈ corpus, r.postIndex = post.postIndex ∧
      r.mediaIndex = post.mediaIndex) ∧ 1 ≤ r.rank := by
  rcases mem_mapIdx' hr with ⟨n, x, hx, _, rfl⟩
  have hx' : x ∈ corpus.map fun post => SimScored.mk post.postIndex
      post.mediaIndex (env.cosineSim qv post.embedding) :=
    (sortD_perm (·.similarity) _).mem_iff.mp hx
  rcases List.mem_map.mp hx' with ⟨post, hpost, rfl⟩
  exact ⟨⟨post, hpost, rfl, rfl⟩, Nat.succ_le_succ (Nat.zero_le n)⟩

theorem semListOf_length (env : Env) (qv : List ℚ)
    (corpus : List PostEmbedding) :
    (semListOf env qv corpus).length = corpus.length := by
  rw [semListOf, length_mapIdx', (sortD_perm _ _).length_eq, List.length_map]

theorem semListOf_pairs_nodup {env : Env} {qv : List ℚ}
    {corpus : List PostEmbedding}
    (h : (corpus.map fun post => (post.postIndex, post.mediaIndex)).Nodup) :
    ((semListOf env qv corpus).map fun r =>
      (r.postIndex, r.mediaIndex)).Nodup := by
  rw [semListOf, map_mapIdx' _ _
    (fun x : SimScored => (x.postIndex, x.mediaIndex)) _ _ (fun n x => rfl)]
  have hperm := (sortD_perm (·.similarity) (corpus.map fun post =>
    SimScored.mk post.postIndex post.mediaIndex
      (env.cosineSim qv post.embedding))).map
    (fun x : SimScored => (x.postIndex, x.mediaIndex))
  refine hperm.nodup_iff.mpr ?_
  rw [List.map_map]
  exact h

theorem getSemanticRanks_ok_mem {env : Env} {q : Str}
    {corpus : List PostEmbedding} {sem : List RankedResult}
    (h : getSemanticRanks env q corpus = .ok sem) :
    ∀ r ∈ sem, ∃ post ∈ corpus, r.postIndex = post.postIndex ∧
      r.mediaIndex = post.mediaIndex := by
  rw [getSemanticRanks] at h
  split at h
  · cases h
    intro r hr
    cases hr
  · split at h
    · cases h
    · split at h
      · cases h
      · cases h
        intro r hr
        exact (semListOf_mem hr).1

theorem getKeywordRanks_mem {env : Env} {q : Str} {corpus : List PostEmbedding}
    {r : KeywordSearchResult} (hr : r ∈ getKeywordRanks env q corpus) :
    (∃ post ∈ corpus, r.postIndex = post.postIndex ∧
      r.mediaIndex = post.mediaIndex) ∧ 1 ≤ r.rank ∧ 0 < r.score := by
  rw [getKeywordRanks] at hr
  split at hr
  · cases hr
  · dsimp only [] at hr
    split at hr
    · cases hr
    · rcases mem_mapIdx' hr with ⟨n, x, hx, _, rfl⟩
      have hx2 : x ∈ (mapIdx' (fun index post => ScoredDoc.mk post.postIndex
          post.mediaIndex (((env.bm25 (corpus.map (·.title))
            (tokenize q))).getD index 0)) 0 corpus).filter
          fun s => decide (0 < s.score) :=
        (sortD_perm (·.score) _).mem_iff.mp hx
      have hpos : 0 < x.score := by
        have := List.of_mem_filter hx2
        simpa using this
      have hx3 := List.mem_of_mem_filter hx2
      rcases mem_mapIdx' hx3 with ⟨i, post, hpost, _, rfl⟩
      exact ⟨⟨post, hpost, rfl, rfl⟩, Nat.succ_le_succ (Nat.zero_le n), hpos⟩

theorem getKeywordRanks_pairs_nodup {env : Env} {q : Str}
    {corpus : List PostEmbedding}
    (h : (corpus.map fun post => (post.postIndex, post.mediaIndex)).Nodup) :
    ((getKeywordRanks env q corpus).map fun r =>
      (r.postIndex, r.mediaIndex)).Nodup := by
  rw [getKeywordRanks]
  split
  · simp
  · dsimp only []
    split
    · simp
    · rw [map_mapIdx' _ _
        (fun x : ScoredDoc => (x.postIndex, x.mediaIndex)) _ _ (fun n x => rfl)]
      have hperm := (sortD_perm (·.score)
        ((mapIdx' (fun index post => ScoredDoc.mk post.postIndex
          post.mediaIndex (((env.bm25 (corpus.map (·.title))
            (tokenize q))).getD index 0)) 0 corpus).filter
          fun s => decide (0 < s.score))).map
        (fun x : ScoredDoc => (x.postIndex, x.mediaIndex))
      refine hperm.nodup_iff.mpr ?_
      have hsub : List.Sublist (((mapIdx' (fun index post => ScoredDoc.mk
          post.postIndex post.mediaIndex (((env.bm25 (corpus.map (·.title))
            (tokenize q))).getD index 0)) 0 corpus).filter
          fun s => decide (0 < s.score)).map
          fun x : ScoredDoc => (x.postIndex, x.mediaIndex))
          ((mapIdx' (fun index post => ScoredDoc.mk post.postIndex
            post.mediaIndex (((env.bm25 (corpus.map (·.title))
              (tokenize q))).getD index 0)) 0 corpus).map
            fun x : ScoredDoc => (x.postIndex, x.mediaIndex)) :=
        (List.filter_sublist _).map _
      have hall : ((mapIdx' (fun index post => ScoredDoc.mk post.postIndex
          post.mediaIndex (((env.bm25 (corpus.map (·.title))
            (tokenize q))).getD index 0)) 0 corpus).map
            fun x : ScoredDoc => (x.postIndex, x.mediaIndex)).Nodup := by
        rw [map_mapIdx' _ _
          (fun post : PostEmbedding => (post.postIndex, post.mediaIndex)) _ _
          (fun n x => rfl)]
        exact h
      exact hall.sublist hsub

/-- C3: hybrid mode never fails solely because the keyword scorer found
nothing — with the semantic call succeeding and an empty keyword list,
fusion proceeds on the semantic list alone and (for a non-empty corpus and
positive `topK`) still returns results; but hybrid mode does fail whenever
the semantic call itself errors: with a `ConfigurationError` when the
embedding credential is not configured, and with the propagated
`providerError` when the embedding call fails (for any non-blank query —
never a silent degradation to keyword-only). -/
theorem hybrid_keyword_empty_ok_and_config_error :
    (∀ (env : Env) (q : Str) (topK : ℕ) (corpus : List PostEmbedding)
      (qv : List ℚ), isBlankQuery q = false → env.apiKey = true →
      env.embed q = .ok qv → getKeywordRanks env q corpus = [] →
      corpus ≠ [] → 1 ≤ topK →
      ∃ rs, hybridSearch env q topK corpus = .ok rs ∧ rs ≠ []) ∧
    (∀ (env : Env) (q : Str) (topK : ℕ) (corpus : List PostEmbedding),
      isBlankQuery q = false → env.apiKey = false →
      hybridSearch env q topK corpus = .error .configurationError) ∧
    (∀ (env : Env) (q : Str) (topK : ℕ) (corpus : List PostEmbedding)
      (e : Str), isBlankQuery q = false → env.apiKey = true →
      env.embed q = .error e →
      hybridSearch env q topK corpus = .error (.providerError e)) := by
  refine ⟨?_, ?_, ?_⟩
  · intro env q topK corpus qv hq hkey hembed hkw hc htopK
    have hsem := getSemanticRanks_ok corpus hq hkey hembed
    have heq : hybridSearch env q topK corpus = resolveFused corpus
        ((fuseRRF (semListOf env qv corpus) (getKeywordRanks env q corpus)
          60).take topK) := by
      rw [hybridSearch, if_neg (by simp [hq]), hsem]
    have hres : ∀ f ∈ (fuseRRF (semListOf env qv corpus)
        (getKeywordRanks env q corpus) 60).take topK,
        ∃ post ∈ corpus, getKey post.postIndex post.mediaIndex =
          getKey f.postIndex f.mediaIndex := by
      intro f hf
      have hf' := (List.take_sublist _ _).subset hf
      rcases fuseRRF_mem_shape hf' with ⟨r, hr, h1, h2⟩ | ⟨r, hr, _, _⟩
      · rcases (semListOf_mem hr).1 with ⟨post, hpost, e1, e2⟩
        exact ⟨post, hpost, by rw [h1, h2, e1, e2]⟩
      · rw [hkw] at hr
        cases hr
    rcases resolveFused_ok hres with ⟨rs, hrs, hlen, _⟩
    refine ⟨rs, heq ▸ hrs, ?_⟩
    have hsemne : semListOf env qv corpus ≠ [] := by
      intro hnil
      have := semListOf_length env qv corpus
      rw [hnil] at this
      exact hc (List.length_eq_zero.mp this.symm)
    have hfne : fuseRRF (semListOf env qv corpus)
        (getKeywordRanks env q corpus) 60 ≠ [] := fuseRRF_ne_nil hsemne
    intro hrsnil
    rw [hrsnil] at hlen
    rcases List.take_eq_nil_iff.mp (List.length_eq_zero.mp hlen.symm) with h0 | h0
    · omega
    · exact hfne h0
  · intro env q topK corpus hq hkey
    rw [hybridSearch, if_neg (by simp [hq]), getSemanticRanks,
      if_neg (by simp [hq]), if_pos (by simp [hkey])]
  · intro env q topK corpus e hq hkey hembed
    rw [hybridSearch, if_neg (by simp [hq]), getSemanticRanks,
      if_neg (by simp [hq]), if_neg (by simp [hkey]), hembed]

/-- Witness for C3: a one-document corpus whose BM25 score array is all
zeros (keyword list empty) still returns a hybrid result; the same setup
without the credential yields a `ConfigurationError`, and with a failing
embedding call the provider error propagates. -/
theorem hybrid_keyword_empty_ok_and_config_error_witness :
    (∃ rs, hybridSearch (demoEnv [0]) ['g'] 10 [postA] = .ok rs ∧ rs ≠ []) ∧
    hybridSearch demoEnvNoKey ['g'] 10 [postA] = .error .configurationError ∧
    hybridSearch demoEnvFail ['g'] 10 [postA] =
      .error (.providerError ['e']) :=
  ⟨hybrid_keyword_empty_ok_and_config_error.1 (demoEnv [0]) ['g'] 10 [postA]
      [1] (by decide) (by decide) rfl
      (by norm_num +decide [getKeywordRanks, demoEnv, postA, mapIdx', sortD,
        insertD, List.filter,
        show isBlankQuery ['g'] = false from by decide,
        show tokenize ['g'] = [['g']] from by decide])
      (by decide) (by decide),
    hybrid_keyword_empty_ok_and_config_error.2.1 demoEnvNoKey ['g'] 10 [postA]
      (by decide) (by decide),
    hybrid_keyword_empty_ok_and_config_error.2.2 demoEnvFail ['g'] 10 [postA]
      ['e'] (by decide) (by decide) rfl⟩

/-- C9: with non-negative integer indices (the model's `ℕ`) the key
encoding `postIndex-mediaIndex` round-trips exactly through split-on-hyphen
parsing, and — given key-pair uniqueness across the corpus — the
`Post not found` branch of hybrid-mode and keyword-mode resolution is
unreachable: neither mode can fail with `postNotFound`. -/
theorem key_roundtrip_resolution_total (corpus : List PostEmbedding)
    (_hnodup : (corpus.map fun post =>
      (post.postIndex, post.mediaIndex)).Nodup) :
    (∀ p m : ℕ, decodeKey (getKey p m) = (p, m)) ∧
    (∀ (env : Env) (q : Str) (topK : ℕ) (s : Str),
      hybridSearch env q topK corpus ≠ .error (.postNotFound s)) ∧
    (∀ (env : Env) (q : Str) (topK : ℕ) (s : Str),
      keywordSearch env q topK corpus ≠ .error (.postNotFound s)) := by
  refine ⟨decodeKey_getKey, ?_, ?_⟩
  · intro env q topK s
    rw [hybridSearch]
    split
    · intro h
      cases h
    · cases hsem : getSemanticRanks env q corpus with
      | error e =>
        intro h
        cases h
        rcases getSemanticRanks_error_shape hsem with h1 | ⟨s', h1⟩ <;> cases h1
      | ok sem =>
        have hres : ∀ f ∈ (fuseRRF sem (getKeywordRanks env q corpus)
            60).take topK,
            ∃ post ∈ corpus, getKey post.postIndex post.mediaIndex =
              getKey f.postIndex f.mediaIndex := by
          intro f hf
          have hf' := (List.take_sublist _ _).subset hf
          rcases fuseRRF_mem_shape hf' with ⟨r, hr, h1, h2⟩ | ⟨r, hr, h1, h2⟩
          · rcases getSemanticRanks_ok_mem hsem r hr with ⟨post, hpost, e1, e2⟩
            exact ⟨post, hpost, by rw [h1, h2, e1, e2]⟩
          · rcases (getKeywordRanks_mem hr).1 with ⟨post, hpost, e1, e2⟩
            exact ⟨post, hpost, by rw [h1, h2, e1, e2]⟩
        rcases resolveFused_ok hres with ⟨rs, hrs, _, _⟩
        dsimp only []
        rw [hrs]
        intro h
        cases h
  · intro env q topK s
    rw [keywordSearch]
    split
    · intro h
      cases h
    · have hres : ∀ r ∈ (getKeywordRanks env q corpus).take topK,
          ∃ post ∈ corpus, getKey post.postIndex post.mediaIndex =
            getKey r.postIndex r.mediaIndex := by
        intro r hr
        have hr' := (List.take_sublist _ _).subset hr
        rcases (getKeywordRanks_mem hr').1 with ⟨post, hpost, e1, e2⟩
        exact ⟨post, hpost, by rw [e1, e2]⟩
      rcases resolveKeyword_ok hres with ⟨rs, hrs, _, _⟩
      rw [hrs]
      intro h
      cases h

/-- Witness for C9 on a concrete two-document corpus. -/
theorem key_roundtrip_resolution_total_witness :
    ([postA, postB].map fun post =>
      (post.postIndex, post.mediaIndex)).Nodup ∧
    (decodeKey (getKey 3 5) = (3, 5) ∧
      hybridSearch (demoEnv [2, 1]) ['g'] 10 [postA, postB] ≠
        .error (.postNotFound ['x']) ∧
      keywordSearch (demoEnv [2, 1]) ['g'] 10 [postA, postB] ≠
        .error (.postNotFound ['x'])) :=
  ⟨by decide,
    (key_roundtrip_resolution_total [postA, postB] (by decide)).1 3 5,
    (key_roundtrip_resolution_total [postA, postB] (by decide)).2.1
      (demoEnv [2, 1]) ['g'] 10 ['x'],
    (key_roundtrip_resolution_total [postA, postB] (by decide)).2.2
      (demoEnv [2, 1]) ['g'] 10 ['x']⟩

theorem pairwise_mapIdx' {α β : Type} {S : α → α → Prop} {R : β → β → Prop}
    (f : ℕ → α → β) (s : ℕ) {l : List α} (h : l.Pairwise S)
    (himp : ∀ n m x y, S x y → R (f n x) (f m y)) :
    (mapIdx' f s l).Pairwise R := by
  induction l generalizing s with
  | nil => simp [mapIdx']
  | cons x xs ih =>
    rcases List.pairwise_cons.mp h with ⟨hx, hxs⟩
    refine List.pairwise_cons.mpr ⟨?_, ih (s + 1) hxs⟩
    intro b hb
    rcases mem_mapIdx' hb with ⟨n, y, hy, _, rfl⟩
    exact himp s n x y (hx y hy)

/-- C6: with the provider configured and the embedding call succeeding, a
non-blank query in semantic mode scores the whole corpus (no filtering
threshold), returns results sorted descending by similarity, truncated to
`topK`: the length is `min topK |corpus|`, every result is a scored corpus
document, and when `topK` covers the corpus the output is a permutation of
the whole scored corpus. -/
theorem searchPosts_semantic_mode (env : Env) (q : Str) (topK : ℕ)
    (corpus : List PostEmbedding) (qv : List ℚ)
    (hq : isBlankQuery q = false) (hkey : env.apiKey = true)
    (hembed : env.embed q = .ok qv) :
    ∃ rs, searchPosts env q topK corpus = .ok rs ∧
      rs.length = min topK corpus.length ∧
      rs.Pairwise (fun a b => b.similarity ≤ a.similarity) ∧
      (∀ r ∈ rs, ∃ post ∈ corpus, r = SearchResult.mk post.postIndex
        post.mediaIndex post.title post.uri post.isVideo
        post.creationTimestamp (env.cosineSim qv post.embedding)) ∧
      (corpus.length ≤ topK → rs.Perm (corpus.map fun post =>
        SearchResult.mk post.postIndex post.mediaIndex post.title post.uri
          post.isVideo post.creationTimestamp
          (env.cosineSim qv post.embedding))) := by
  have heq : searchPosts env q topK corpus = .ok ((sortD (·.similarity)
      (corpus.map fun post => SearchResult.mk post.postIndex post.mediaIndex
        post.title post.uri post.isVideo post.creationTimestamp
        (env.cosineSim qv post.embedding))).take topK) := by
    rw [searchPosts, if_neg (by simp [hq]), if_neg (by simp [hkey]), hembed]
  refine ⟨_, heq, ?_, ?_, ?_, ?_⟩
  · rw [List.length_take, (sortD_perm _ _).length_eq, List.length_map]
  · exact ((sortD_sorted (fun r : SearchResult => r.similarity) _).sublist
      (List.take_sublist _ _))
  · intro r hr
    have hr' : r ∈ sortD (·.similarity) (corpus.map fun post =>
        SearchResult.mk post.postIndex post.mediaIndex post.title post.uri
          post.isVideo post.creationTimestamp
          (env.cosineSim qv post.embedding)) :=
      (List.take_sublist _ _).subset hr
    have := (sortD_perm (fun r : SearchResult => r.similarity) _).mem_iff.mp hr'
    rcases List.mem_map.mp this with ⟨post, hpost, rfl⟩
    exact ⟨post, hpost, rfl⟩
  · intro hlen
    have hall : (sortD (·.similarity) (corpus.map fun post =>
        SearchResult.mk post.postIndex post.mediaIndex post.title post.uri
          post.isVideo post.creationTimestamp
          (env.cosineSim qv post.embedding))).take topK =
        sortD (·.similarity) (corpus.map fun post =>
        SearchResult.mk post.postIndex post.mediaIndex post.title post.uri
          post.isVideo post.creationTimestamp
          (env.cosineSim qv post.embedding)) := by
      refine List.take_of_length_le ?_
      rw [(sortD_perm _ _).length_eq, List.length_map]
      exact hlen
    rw [hall]
    exact sortD_perm _ _

/-- Witness for C6 on a two-document corpus with `topK = 10`. -/
theorem searchPosts_semantic_mode_witness :
    isBlankQuery ['g'] = false ∧ (demoEnv []).apiKey = true ∧
    (demoEnv []).embed ['g'] = .ok [1] ∧
    ∃ rs, searchPosts (demoEnv []) ['g'] 10 [postA, postB] = .ok rs ∧
      rs.length = min 10 [postA, postB].length ∧
      rs.Pairwise (fun a b => b.similarity ≤ a.similarity) ∧
      (∀ r ∈ rs, ∃ post ∈ [postA, postB], r = SearchResult.mk post.postIndex
        post.mediaIndex post.title post.uri post.isVideo
        post.creationTimestamp ((demoEnv []).cosineSim [1] post.embedding)) ∧
      ([postA, postB].length ≤ 10 → rs.Perm ([postA, postB].map fun post =>
        SearchResult.mk post.postIndex post.mediaIndex post.title post.uri
          post.isVideo post.creationTimestamp
          ((demoEnv []).cosineSim [1] post.embedding))) :=
  ⟨by decide, by decide, rfl,
    searchPosts_semantic_mode (demoEnv []) ['g'] 10 [postA, postB] [1]
      (by decide) (by decide) rfl⟩

/-- C2: for a query passing the blank/token guards, keyword mode's ranked
list holds exactly the corpus documents with strictly positive BM25 score
(documents scoring at most 0 never appear), sorted descending by score,
with 1-indexed consecutive ranks `1..n` assigned after filtering and
sorting. -/
theorem getKeywordRanks_keyword_mode (env : Env) (q : Str)
    (corpus : List PostEmbedding)
    (hq : isBlankQuery q = false) (ht : (tokenize q).isEmpty = false) :
    ((getKeywordRanks env q corpus).map fun r =>
        ScoredDoc.mk r.postIndex r.mediaIndex r.score).Perm
      ((mapIdx' (fun index post => ScoredDoc.mk post.postIndex post.mediaIndex
        ((env.bm25 (corpus.map (·.title)) (tokenize q)).getD index 0)) 0
        corpus).filter fun s => decide (0 < s.score)) ∧
    (getKeywordRanks env q corpus).Pairwise (fun a b => b.score ≤ a.score) ∧
    ((getKeywordRanks env q corpus).map (·.rank) =
      List.range' 1 (getKeywordRanks env q corpus).length) ∧
    (∀ r ∈ getKeywordRanks env q corpus, 0 < r.score) := by
  have heq : getKeywordRanks env q corpus =
      mapIdx' (fun index r => KeywordSearchResult.mk r.postIndex r.mediaIndex
        (index + 1) r.score) 0 (sortD (·.score)
        ((mapIdx' (fun index post => ScoredDoc.mk post.postIndex
          post.mediaIndex ((env.bm25 (corpus.map (·.title))
            (tokenize q)).getD index 0)) 0 corpus).filter
          fun s => decide (0 < s.score))) := by
    rw [getKeywordRanks, if_neg (by simp [hq])]
    dsimp only []
    rw [if_neg (by simp [ht])]
  refine ⟨?_, ?_, ?_, fun r hr => (getKeywordRanks_mem hr).2.2⟩
  · rw [heq, map_mapIdx' _ _ (fun x : ScoredDoc => x) _ _ (fun n x => rfl),
      List.map_id']
    exact sortD_perm _ _
  · rw [heq]
    exact pairwise_mapIdx' _ 0 (sortD_sorted (·.score) _)
      (fun n m x y hxy => hxy)
  · rw [heq, length_mapIdx']
    exact map_mapIdx'_range' _ (fun r : KeywordSearchResult => r.rank) 0 _
      (fun n x => rfl)

/-- Witness for C2: corpus `[A, B]` with BM25 scores `[2, 0]`; only `A`
scores positively and is ranked 1. -/
theorem getKeywordRanks_keyword_mode_witness :
    isBlankQuery ['g'] = false ∧ (tokenize ['g']).isEmpty = false ∧
    (((getKeywordRanks (demoEnv [2, 0]) ['g'] [postA, postB]).map fun r =>
        ScoredDoc.mk r.postIndex r.mediaIndex r.score).Perm
      ((mapIdx' (fun index post => ScoredDoc.mk post.postIndex post.mediaIndex
        (((demoEnv [2, 0]).bm25 ([postA, postB].map (·.title))
          (tokenize ['g'])).getD index 0)) 0
        [postA, postB]).filter fun s => decide (0 < s.score)) ∧
    (getKeywordRanks (demoEnv [2, 0]) ['g'] [postA, postB]).Pairwise
      (fun a b => b.score ≤ a.score) ∧
    ((getKeywordRanks (demoEnv [2, 0]) ['g'] [postA, postB]).map (·.rank) =
      List.range' 1
        (getKeywordRanks (demoEnv [2, 0]) ['g'] [postA, postB]).length) ∧
    (∀ r ∈ getKeywordRanks (demoEnv [2, 0]) ['g'] [postA, postB],
      0 < r.score)) :=
  ⟨by decide, by decide,
    getKeywordRanks_keyword_mode (demoEnv [2, 0]) ['g'] [postA, postB]
      (by decide) (by decide)⟩

theorem filter_key_length_le_one {α K : Type} [DecidableEq K] (key : α → K)
    {l : List α} (h : (l.map key).Nodup) (k : K) :
    (l.filter fun x => decide (key x = k)).length ≤ 1 := by
  induction l with
  | nil => simp
  | cons x xs ih =>
    have hnd : key x ∉ xs.map key ∧ (xs.map key).Nodup :=
      List.nodup_cons.mp (by simpa using h)
    by_cases hx : key x = k
    · rw [List.filter_cons, if_pos (by simpa using hx)]
      have hnil : xs.filter (fun y => decide (key y = k)) = [] := by
        rw [List.filter_eq_nil_iff]
        intro y hy
        simp only [decide_eq_true_eq]
        intro hyk
        apply hnd.1
        have hmem : key y ∈ xs.map key := List.mem_map_of_mem key hy
        rwa [hyk, ← hx] at hmem
      rw [hnil]
      simp
    · rw [List.filter_cons, if_neg (by simpa using hx)]
      exact ih hnd.2

theorem semRanksAt_cases {sem : List RankedResult}
    (hnd : (sem.map fun r => (r.postIndex, r.mediaIndex)).Nodup) (p m : ℕ) :
    semRanksAt sem p m = [] ∨
      ∃ r ∈ sem, r.postIndex = p ∧ r.mediaIndex = m ∧
        semRanksAt sem p m = [r.rank] := by
  have hconv : sem.filter (fun r => decide (r.postIndex = p ∧ r.mediaIndex = m)) =
      sem.filter (fun r => decide ((r.postIndex, r.mediaIndex) = (p, m))) :=
    List.filter_congr fun r _ => by
      rw [decide_eq_decide]
      simp [Prod.ext_iff]
  have hlen := filter_key_length_le_one
    (fun r : RankedResult => (r.postIndex, r.mediaIndex)) hnd (p, m)
  rw [← hconv] at hlen
  rcases hf : sem.filter (fun r => decide (r.postIndex = p ∧ r.mediaIndex = m))
    with _ | ⟨x, t⟩
  · left
    rw [semRanksAt, hf]
    rfl
  · rcases t with _ | ⟨y, t'⟩
    · have hx := List.mem_filter.mp (hf ▸ List.mem_cons_self x [])
      have hx2 : x.postIndex = p ∧ x.mediaIndex = m := by
        simpa using hx.2
      right
      exact ⟨x, hx.1, hx2.1, hx2.2, by rw [semRanksAt, hf]; rfl⟩
    · rw [hf] at hlen
      simp at hlen

theorem kwRanksAt_cases {kw : List KeywordSearchResult}
    (hnd : (kw.map fun r => (r.postIndex, r.mediaIndex)).Nodup) (p m : ℕ) :
    kwRanksAt kw p m = [] ∨
      ∃ r ∈ kw, r.postIndex = p ∧ r.mediaIndex = m ∧
        kwRanksAt kw p m = [r.rank] := by
  have hconv : kw.filter (fun r => decide (r.postIndex = p ∧ r.mediaIndex = m)) =
      kw.filter (fun r => decide ((r.postIndex, r.mediaIndex) = (p, m))) :=
    List.filter_congr fun r _ => by
      rw [decide_eq_decide]
      simp [Prod.ext_iff]
  have hlen := filter_key_length_le_one
    (fun r : KeywordSearchResult => (r.postIndex, r.mediaIndex)) hnd (p, m)
  rw [← hconv] at hlen
  rcases hf : kw.filter (fun r => decide (r.postIndex = p ∧ r.mediaIndex = m))
    with _ | ⟨x, t⟩
  · left
    rw [kwRanksAt, hf]
    rfl
  · rcases t with _ | ⟨y, t'⟩
    · have hx := List.mem_filter.mp (hf ▸ List.mem_cons_self x [])
      have hx2 : x.postIndex = p ∧ x.mediaIndex = m := by
        simpa using hx.2
      right
      exact ⟨x, hx.1, hx2.1, hx2.2, by rw [kwRanksAt, hf]; rfl⟩
    · rw [hf] at hlen
      simp at hlen

theorem sumRR_single_bounds {r : ℕ} (h : 1 ≤ r) :
    0 < sumRR 60 [r] ∧ sumRR 60 [r] ≤ 1 / 61 := by
  have hr : (1 : ℚ) ≤ (r : ℚ) := by exact_mod_cast h
  have h61 : (61 : ℚ) ≤ 60 + (r : ℚ) := by linarith
  have hpos : (0 : ℚ) < 60 + (r : ℚ) := by linarith
  rw [sumRR_cons, sumRR_nil, add_zero]
  exact ⟨one_div_pos.mpr hpos,
    one_div_le_one_div_of_le (by norm_num) h61⟩

theorem resolveFused_sim {corpus : List PostEmbedding} {fl : List FusedResult}
    {rs : List SearchResult} (h : resolveFused corpus fl = .ok rs) :
    ∀ r ∈ rs, ∃ f ∈ fl, r.similarity = f.rrfScore := by
  induction fl generalizing rs with
  | nil =>
    cases h
    intro r hr
    cases hr
  | cons f fs ih =>
    rw [resolveFused] at h
    cases hl : mapLookup corpus (getKey f.postIndex f.mediaIndex) with
    | none => rw [hl] at h; cases h
    | some post =>
      rw [hl] at h
      cases hres : resolveFused corpus fs with
      | error e => rw [hres] at h; cases h
      | ok out =>
        rw [hres] at h
        cases h
        intro r hr
        rcases List.mem_cons.mp hr with rfl | hr'
        · exact ⟨f, List.mem_cons_self _ _, rfl⟩
        · rcases ih hres r hr' with ⟨g, hg, hsg⟩
          exact ⟨g, List.mem_cons_of_mem _ hg, hsg⟩

theorem getSemanticRanks_ok_pairs_nodup {env : Env} {q : Str}
    {corpus : List PostEmbedding} {sem : List RankedResult}
    (hnd : (corpus.map fun post => (post.postIndex, post.mediaIndex)).Nodup)
    (h : getSemanticRanks env q corpus = .ok sem) :
    (sem.map fun r => (r.postIndex, r.mediaIndex)).Nodup := by
  rw [getSemanticRanks] at h
  split at h
  · cases h
    simp
  · split at h
    · cases h
    · split at h
      · cases h
      · cases h
        exact semListOf_pairs_nodup hnd

theorem getSemanticRanks_ok_ranks {env : Env} {q : Str}
    {corpus : List PostEmbedding} {sem : List RankedResult}
    (h : getSemanticRanks env q corpus = .ok sem) :
    ∀ r ∈ sem, 1 ≤ r.rank := by
  rw [getSemanticRanks] at h
  split at h
  · cases h
    intro r hr
    cases hr
  · split at h
    · cases h
    · split at h
      · cases h
      · cases h
        intro r hr
        exact (semListOf_mem hr).2

theorem fuseRRF_score_range {sem : List RankedResult}
    {kw : List KeywordSearchResult}
    (hsemnd : (sem.map fun r => (r.postIndex, r.mediaIndex)).Nodup)
    (hkwnd : (kw.map fun r => (r.postIndex, r.mediaIndex)).Nodup)
    (hsemrk : ∀ r ∈ sem, 1 ≤ r.rank) (hkwrk : ∀ r ∈ kw, 1 ≤ r.rank) :
    ∀ f ∈ fuseRRF sem kw 60, 0 < f.rrfScore ∧ f.rrfScore ≤ 2 / 61 := by
  intro f hf
  rw [fuseRRF] at hf
  have hmem := (sortD_perm (fun x : FusedResult => x.rrfScore) _).mem_iff.mp hf
  rcases List.mem_map.mp hmem with ⟨e, he, rfl⟩
  have hget : mapGet (rrfMap 60 sem kw) e.1 = some e.2 :=
    mapGet_of_mem_nodup (nodup_keysOf_rrfMap 60 sem kw) he
  have hk : e.1 ∈ keysOf (rrfMap 60 sem kw) := List.mem_map_of_mem _ he
  have hexists : ∃ a b, e.1 = getKey a b := by
    rcases rrfMap_keys_shape 60 sem kw hk with ⟨r, _, hr⟩ | ⟨r, _, hr⟩ <;>
      exact ⟨_, _, hr⟩
  rcases hexists with ⟨a, b, hab⟩
  rw [hab, rrfMap_get, ranksAt_semEntries, ranksAt_kwEntries] at hget
  have hbound : ∀ v : ℚ, (if semRanksAt sem a b = [] ∧ kwRanksAt kw a b = []
      then none else some (sumRR 60 (semRanksAt sem a b) +
        sumRR 60 (kwRanksAt kw a b))) = some v →
      0 < v ∧ v ≤ 2 / 61 := by
    intro v hv
    split at hv
    · cases hv
    · rename_i hcond
      have hv' : sumRR 60 (semRanksAt sem a b) +
          sumRR 60 (kwRanksAt kw a b) = v := by
        injection hv
      rcases semRanksAt_cases hsemnd a b with hS | ⟨r, hr, _, _, hS⟩ <;>
        rcases kwRanksAt_cases hkwnd a b with hK | ⟨k, hk2, _, _, hK⟩
      · exact absurd ⟨hS, hK⟩ hcond
      · rcases sumRR_single_bounds (hkwrk k hk2) with ⟨hp, hb⟩
        rw [hS, hK] at hv'
        rw [sumRR_nil] at hv'
        constructor <;> linarith
      · rcases sumRR_single_bounds (hsemrk r hr) with ⟨hp, hb⟩
        rw [hS, hK] at hv'
        rw [sumRR_nil] at hv'
        constructor <;> linarith
      · rcases sumRR_single_bounds (hsemrk r hr) with ⟨hp1, hb1⟩
        rcases sumRR_single_bounds (hkwrk k hk2) with ⟨hp2, hb2⟩
        rw [hS, hK] at hv'
        constructor <;> linarith
  exact hbound e.2 hget

/-- C10: every `similarity` value hybrid mode returns lies in the interval
`(0, 2/61]`: at least one reciprocal-rank contribution `1/(60+rank)` with
`rank ≥ 1`, at most two, each at most `1/61`. -/
theorem hybrid_similarity_range (env : Env) (q : Str) (topK : ℕ)
    (corpus : List PostEmbedding) (rs : List SearchResult)
    (hnodup : (corpus.map fun post => (post.postIndex, post.mediaIndex)).Nodup)
    (hok : hybridSearch env q topK corpus = .ok rs) :
    ∀ r ∈ rs, 0 < r.similarity ∧ r.similarity ≤ 2 / 61 := by
  rw [hybridSearch] at hok
  split at hok
  · cases hok
    intro r hr
    cases hr
  · cases hsem : getSemanticRanks env q corpus with
    | error e =>
      rw [hsem] at hok
      cases hok
    | ok sem =>
      rw [hsem] at hok
      dsimp only [] at hok
      intro r hr
      rcases resolveFused_sim hok r hr with ⟨f, hf, hsim⟩
      have hf' := (List.take_sublist _ _).subset hf
      have hrange := fuseRRF_score_range
        (getSemanticRanks_ok_pairs_nodup hnodup hsem)
        (getKeywordRanks_pairs_nodup hnodup)
        (getSemanticRanks_ok_ranks hsem)
        (fun k hk => (getKeywordRanks_mem hk).2.1) f hf'
      rw [hsim]
      exact hrange

/-- Witness for C10 on a concrete hybrid run: both similarities equal
`1/61 + 1/62`, inside `(0, 2/61]`. -/
theorem hybrid_similarity_range_witness :
    ([postA, postB].map fun post => (post.postIndex, post.mediaIndex)).Nodup ∧
    ∀ r ∈ [SearchResult.mk 1 0 ['b'] [] false 0 (1 / 61 + 1 / 62),
        SearchResult.mk 0 0 ['a'] [] false 0 (1 / 61 + 1 / 62)],
      0 < r.similarity ∧ r.similarity ≤ 2 / 61 :=
  ⟨by decide,
    hybrid_similarity_range (demoEnv [2, 1]) ['g'] 10 [postA, postB] _
      (by decide)
      (by norm_num +decide [hybridSearch, demoEnv, postA, postB,
        show isBlankQuery ['g'] = false from by decide,
        show tokenize ['g'] = [['g']] from by decide,
        getSemanticRanks, getKeywordRanks, mapIdx', sortD, insertD,
        List.filter, fuseRRF, rrfMap, rrfFold, rrfStep, semEntries, kwEntries,
        mapSet, mapGet, decodeEntry,
        show getKey 0 0 = ['0', '-', '0'] from by decide,
        show getKey 1 0 = ['1', '-', '0'] from by decide,
        show decodeKey ['0', '-', '0'] = (0, 0) from by decide,
        show decodeKey ['1', '-', '0'] = (1, 0) from by decide,
        resolveFused, mapLookup])⟩
